import Mathlib

/-!
# EthereumBlockAnalyzer: a shallow embedding of `server.go`

The file embeds the pure core of the server (`weiToEther`, `getAPIKey`,
`getBlockNumberInHex`, `getRequestLink`, `ethereumAnalyzer`) together with the
parts of the Go standard library these functions call (`strings`, `strconv`,
`fmt`, `math/big`, `net/url`), and proves properties of that core.

The library functions follow the Go standard library as of Go 1.13 and later
(integer literals of base 0 admit the prefixes 0b, 0o, 0x and the separator _).

Conventions.
* A Go `string` is a sequence of bytes; a byte is kept as its numeric value.
* A run-time panic (or `log.Fatal`) is an `Except.error` carrying a `Fault`.
* `*big.Int` values are unbounded integers (`Int`), a nil pointer is `none`.
* `*big.Float` values are kept as sign, integer mantissa and binary exponent.
-/

namespace EthereumBlockAnalyzer

/-! ## Go run-time model -/

/-- A Go string: its bytes, in order. -/
abbrev GoString := List Nat

/-- The bytes of an ASCII literal. -/
def bytes (s : String) : GoString := s.toList.map Char.toNat

/-- The ways in which the modelled code can stop abnormally. -/
inductive Fault where
  /-- Go panic: slice bounds out of range. -/
  | sliceBounds
  /-- Go panic: invalid memory address or nil pointer dereference. -/
  | nilDeref
  /-- Process exit through log.Fatal. -/
  | fatal
  deriving DecidableEq, Repr

deriving instance DecidableEq for Except

/-- Outcome of a Go call that may panic. -/
abbrev Go (α : Type) := Except Fault α

/-- The slice expression s[lo:hi] on a string, with Go's bounds check
`0 <= lo <= hi <= len(s)`. -/
def slice (s : GoString) (lo hi : Int) : Go GoString :=
  if 0 ≤ lo ∧ lo ≤ hi ∧ hi ≤ (s.length : Int) then
    .ok ((s.drop lo.toNat).take (hi - lo).toNat)
  else .error .sliceBounds

/-- Go strings.HasPrefix. -/
def HasPrefix : GoString → GoString → Bool
  | _, [] => true
  | [], _ :: _ => false
  | c :: s, p :: ps => c == p && HasPrefix s ps

/-- Go strings.Index: byte offset of the first occurrence of substr in s, or -1. -/
def Index : GoString → GoString → Int
  | [], substr => if substr = [] then 0 else -1
  | c :: s, substr =>
    if HasPrefix (c :: s) substr then 0
    else
      let i := Index s substr
      if i < 0 then -1 else i + 1

/-- Loop of strings.Count: after a match the scan resumes behind the matched
bytes, so `skip` bytes are passed over before the next comparison. -/
def countFrom (substr : GoString) : Nat → GoString → Nat
  | _, [] => 0
  | skip + 1, _ :: s => countFrom substr skip s
  | 0, c :: s =>
    if HasPrefix (c :: s) substr then 1 + countFrom substr (substr.length - 1) s
    else countFrom substr 0 s

/-- Go strings.Count for a non-empty substr: the number of non-overlapping
occurrences of substr in s. -/
def Count (s substr : GoString) : Nat := countFrom substr 0 s

/-- Go strings.Split for a separator of one byte: the pieces of s between the
separators; a string without separator (the empty string too) gives one piece. -/
def Split (s : GoString) (sep : Nat) : List GoString :=
  match s with
  | [] => [[]]
  | c :: t =>
    if c = sep then [] :: Split t sep
    else
      match Split t sep with
      | [] => [[c]]
      | w :: ws => (c :: w) :: ws

/-! ### math/big: scanning an integer literal (`(*Int).SetString`) -/

/-- The variable `prev` of nat.scan: the kind of the previously read byte. -/
inductive Prev where
  /-- Anything else, written '.' in the source. -/
  | dot
  /-- A digit, written '0' in the source. -/
  | digit
  /-- The separator '_'. -/
  | sep
  deriving DecidableEq, Repr

/-- Digit value of a byte in nat.scan; `MaxBase + 1 = 63` for a byte that is no
digit in any base. -/
def digitValue (b ch : Nat) : Nat :=
  if 48 ≤ ch ∧ ch ≤ 57 then ch - 48
  else if 97 ≤ ch ∧ ch ≤ 122 then ch - 97 + 10
  else if 65 ≤ ch ∧ ch ≤ 90 then (if b ≤ 36 then ch - 65 + 10 else ch - 65 + 36)
  else 63

/-- Result of the digit loop of nat.scan. -/
structure ScanState where
  /-- The value accumulated so far. -/
  val : Nat
  /-- The digits counted. -/
  count : Nat
  /-- Kind of the last byte read. -/
  prev : Prev
  /-- Whether a misplaced separator was seen. -/
  invalSep : Bool
  /-- The bytes not consumed. -/
  rest : GoString
  deriving DecidableEq, Repr

/-- The digit loop of nat.scan for base argument 0 and fracOk = false: reads
digits of base `b` and separators until a byte that is neither. -/
def scanDigits (b : Nat) : GoString → Nat → Nat → Prev → Bool → ScanState
  | [], v, cnt, prev, inv => ⟨v, cnt, prev, inv, []⟩
  | ch :: r, v, cnt, prev, inv =>
    if ch = 95 then scanDigits b r v cnt .sep (inv || decide (prev ≠ .digit))
    else if b ≤ digitValue b ch then ⟨v, cnt, prev, inv, ch :: r⟩
    else scanDigits b r (v * b + digitValue b ch) (cnt + 1) .digit inv

/-- Go nat.scan with base argument 0 and fracOk = false. The result is the
scanned value, or none when scan reports an error, and the unread bytes. -/
def natScan (r : GoString) : Option Nat × GoString :=
  -- determine the actual base: (b, prefix, prev, count, bytes still to read)
  let start : Nat × Nat × Prev × Nat × GoString :=
    match r with
    | 48 :: [] => (10, 0, .digit, 1, [])
    | 48 :: ch :: r2 =>
      if ch = 98 ∨ ch = 66 then (2, 98, .digit, 0, r2)
      else if ch = 111 ∨ ch = 79 then (8, 111, .digit, 0, r2)
      else if ch = 120 ∨ ch = 88 then (16, 120, .digit, 0, r2)
      else (8, 48, .digit, 0, ch :: r2)
    | _ => (10, 0, .dot, 0, r)
  let b := start.1
  let pfx := start.2.1
  let st := scanDigits b start.2.2.2.2 0 start.2.2.2.1 start.2.2.1 false
  let errSeparator := st.invalSep || decide (st.prev = .sep)
  if st.count = 0 then
    if pfx = 48 then
      -- only the octal prefix 0: decimal 0
      (if errSeparator then none else some 0, st.rest)
    else (none, st.rest)
  else (if errSeparator then none else some st.val, st.rest)

/-- Go (*big.Int).SetString(s, 0): the integer denoted by s, where the base is
chosen by the prefix; none stands for the returned nil pointer. -/
def SetString (s : GoString) : Option Int :=
  match s with
  | [] => none
  | ch :: r =>
    let neg := decide (ch = 45)
    let body := if ch = 45 ∨ ch = 43 then r else ch :: r
    match natScan body with
    | (some v, []) => some (if neg then -(v : Int) else (v : Int))
    | _ => none

/-! ### math/big: `Float` -/

/-- A `big.Float`: the number `± mant * 2 ^ exp` held with `prec` bits. -/
structure BigFloat where
  /-- Mantissa precision in bits. -/
  prec : Nat
  /-- Sign. -/
  neg : Bool
  /-- Integer mantissa, 0 for the number zero. -/
  mant : Nat
  /-- Binary exponent of the unit of the mantissa. -/
  exp : Int
  deriving DecidableEq, Repr

/-- The rational number a `BigFloat` stands for. -/
def BigFloat.toRat (x : BigFloat) : ℚ :=
  (if x.neg then -1 else 1) * (x.mant : ℚ) * (2 : ℚ) ^ x.exp

/-- Number of binary digits of n, found in at most `fuel` halvings. -/
def bitLenAux : Nat → Nat → Nat
  | 0, _ => 0
  | fuel + 1, n => if n = 0 then 0 else bitLenAux fuel (n / 2) + 1

/-- Go (*big.Int).BitLen on the absolute value: the length of n in bits, 0 for 0. -/
def BitLen (n : Nat) : Nat := bitLenAux n n

/-- Go (*big.Float).SetInt on a fresh Float: precision max(x.BitLen(), 64), the
value is x exactly. -/
def SetInt (x : Int) : BigFloat :=
  ⟨max (BitLen x.natAbs) 64, decide (x < 0), x.natAbs, 0⟩

/-- Go big.NewFloat(1e18): precision 53; 1e18 = 5^18 * 2^18 fits exactly. -/
def NewFloat1e18 : BigFloat := ⟨53, false, 5 ^ 18, 18⟩

/-- The integer nearest to num / den, the even one of the two at a tie. -/
def nearestEven (num den : Nat) : Nat :=
  let q := num / den
  let r := num % den
  if den < 2 * r ∨ (2 * r = den ∧ q % 2 = 1) then q + 1 else q

/-- Rounding of num / den * 2 ^ e0 to a mantissa of p bits, ties to even, where
num / den is at least 2 ^ (p - 1) and below 2 ^ (p + 1): one more halving
brings the quotient below 2 ^ p, and a mantissa rounded up to 2 ^ p is
renormalised. -/
def roundScaled (p num den : Nat) (e0 : Int) : Nat × Int :=
  let den1 := if 2 ^ p * den ≤ num then 2 * den else den
  let e1 : Int := if 2 ^ p * den ≤ num then e0 + 1 else e0
  let m := nearestEven num den1
  if m = 2 ^ p then (2 ^ (p - 1), e1 + 1) else (m, e1)

/-- Quotient n / d of positive integers rounded to a mantissa of p bits, ties
to even (the rounding mode ToNearestEven): the result (m, e) stands for
m * 2 ^ e. The quotient is first scaled by a power of two into the range of
p-bit mantissas, then rounded to an integer. -/
def roundQuo (p n d : Nat) : Nat × Int :=
  let e0 : Int := (BitLen n : Int) - (BitLen d : Int) - (p : Int)
  roundScaled p (n * 2 ^ (-e0).toNat) (d * 2 ^ e0.toNat) e0

/-- Go (*big.Float).Quo on a fresh Float z, for finite non-zero y: z takes the
larger precision of x and y and the correctly rounded quotient x / y. -/
def Quo (x y : BigFloat) : BigFloat :=
  let p := max x.prec y.prec
  if x.mant = 0 then ⟨p, x.neg != y.neg, 0, 0⟩
  else
    let me := roundQuo p x.mant y.mant
    ⟨p, x.neg != y.neg, me.1, me.2 + x.exp - y.exp⟩

/-! ### strconv and fmt -/

/-- The two kinds of error of strconv: strconv.ErrSyntax and strconv.ErrRange. -/
inductive NumError where
  /-- The text does not have the form of a number (ErrSyntax). -/
  | invalidText
  /-- The number does not fit the integer type (ErrRange). -/
  | outOfRange
  deriving DecidableEq, Repr

/-- The digit loop of strconv.ParseUint(s, 10, 64), with the value n read so
far: the returned value and the error, if any. The cutoff is
maxUint64 / 10 + 1, and the sum n * 10 + d is formed in 64 bits. -/
def parseUintLoop : GoString → Nat → Nat × Option NumError
  | [], n => (n, none)
  | c :: s, n =>
    if 48 ≤ c ∧ c ≤ 57 then
      if (2 ^ 64 - 1) / 10 + 1 ≤ n then (2 ^ 64 - 1, some .outOfRange)
      else
        let n1 := (n * 10 + (c - 48)) % 2 ^ 64
        if n1 < n * 10 ∨ 2 ^ 64 - 1 < n1 then (2 ^ 64 - 1, some .outOfRange)
        else parseUintLoop s n1
    else (0, some .invalidText)

/-- Go strconv.ParseUint(s, 10, 64). -/
def ParseUint (s : GoString) : Nat × Option NumError :=
  if s = [] then (0, some .invalidText) else parseUintLoop s 0

/-- Go strconv.ParseInt(s, 10, 64): an optional sign, then ParseUint; a value
out of the range of int64 is replaced by the nearest bound and reported as
ErrRange. -/
def ParseInt (s : GoString) : Int × Option NumError :=
  match s with
  | [] => (0, some .invalidText)
  | c :: r =>
    let neg := decide (c = 45)
    let body := if c = 43 ∨ c = 45 then r else c :: r
    match ParseUint body with
    | (_, some .invalidText) => (0, some .invalidText)
    | (un, e) =>
      if ¬ neg ∧ 2 ^ 63 ≤ un then (2 ^ 63 - 1, some .outOfRange)
      else if neg ∧ 2 ^ 63 < un then (-(2 ^ 63), some .outOfRange)
      else (if neg then -(un : Int) else (un : Int), e)

/-- The byte of the digit d < 16 in "0123456789abcdef". -/
def lowerHexDigit (d : Nat) : Nat := if d < 10 then 48 + d else 87 + d

/-- The digit loop of fmt for base 16: `for u >= 16` writes the digits of u from
the right; a 64-bit number has at most 16 of them, which bounds the loop. -/
def fmtHexLoop : Nat → Nat → GoString → GoString
  | 0, u, buf => lowerHexDigit (u % 16) :: buf
  | fuel + 1, u, buf =>
    if 16 ≤ u then fmtHexLoop fuel (u / 16) (lowerHexDigit (u % 16) :: buf)
    else lowerHexDigit u :: buf

/-- Go fmt.Sprintf("%x", v) for an int64 v: a minus sign for a negative v, then
the absolute value in lower-case hexadecimal. -/
def SprintfHex (v : Int) : GoString :=
  (if v < 0 then [45] else []) ++ fmtHexLoop 15 v.natAbs []

/-! ### net/url -/

/-- The part of s before the first byte c, and the part after it (none when c
does not occur): Go strings.Cut for a separator of one byte. -/
def Cut (s : GoString) (c : Nat) : GoString × Option GoString :=
  match s with
  | [] => ([], none)
  | x :: t =>
    if x = c then ([], some t)
    else ((x :: (Cut t c).1), (Cut t c).2)

/-- The fields of url.URL that the program uses. -/
structure URL where
  /-- Scheme, without the colon. -/
  Scheme : GoString
  /-- Host name. -/
  Host : GoString
  /-- Path. -/
  Path : GoString
  /-- Query, without the question mark. -/
  RawQuery : GoString
  deriving DecidableEq, Repr

/-- Go url.Parse on a URL of the form scheme://host/path?query without
fragment, user information or escapes (the form of the constant that
getRequestLink parses). -/
def Parse (rawURL : GoString) : URL :=
  let schemeRest := Cut rawURL 58
  let rest := schemeRest.2.getD []
  let restQuery := Cut rest 63
  let hier := restQuery.1
  let rawQuery := restQuery.2.getD []
  if HasPrefix hier [47, 47] then
    let auth := Cut (hier.drop 2) 47
    ⟨schemeRest.1, auth.1, (match auth.2 with | none => [] | some p => 47 :: p), rawQuery⟩
  else ⟨schemeRest.1, [], hier, rawQuery⟩

/-- Value of a hexadecimal digit byte. -/
def unhex (c : Nat) : Option Nat :=
  if 48 ≤ c ∧ c ≤ 57 then some (c - 48)
  else if 97 ≤ c ∧ c ≤ 102 then some (c - 97 + 10)
  else if 65 ≤ c ∧ c ≤ 70 then some (c - 65 + 10)
  else none

/-- Go url.QueryUnescape: %XX becomes the byte XX and + a space; none for a
malformed escape. -/
def QueryUnescape : GoString → Option GoString
  | [] => some []
  | c :: s =>
    if c = 37 then
      match s with
      | a :: b :: t =>
        match unhex a, unhex b, QueryUnescape t with
        | some x, some y, some r => some ((x * 16 + y) :: r)
        | _, _, _ => none
      | _ => none
    else
      match QueryUnescape s with
      | some r => some ((if c = 43 then 32 else c) :: r)
      | none => none

/-- The byte of the digit d < 16 in "0123456789ABCDEF". -/
def upperHexDigit (d : Nat) : Nat := if d < 10 then 48 + d else 55 + d

/-- Whether url.QueryEscape leaves the byte as it is: letters, digits and
the marks - _ . ~ . -/
def unreserved (c : Nat) : Bool :=
  (97 ≤ c && c ≤ 122) || (65 ≤ c && c ≤ 90) || (48 ≤ c && c ≤ 57) ||
    c = 45 || c = 95 || c = 46 || c = 126

/-- Go url.QueryEscape: a space becomes +, every other byte that is not
unreserved becomes %XX with upper-case hexadecimal digits. -/
def QueryEscape : GoString → GoString
  | [] => []
  | c :: s =>
    if unreserved c then c :: QueryEscape s
    else if c = 32 then 43 :: QueryEscape s
    else 37 :: upperHexDigit (c / 16 % 16) :: upperHexDigit (c % 16) :: QueryEscape s

/-- A url.Values map: keys with their lists of values; a key occurs once. -/
abbrev Values := List (GoString × List GoString)

/-- The statement m[key] = append(m[key], value). -/
def Values.add (m : Values) (key value : GoString) : Values :=
  match m with
  | [] => [(key, [value])]
  | (k, vs) :: rest =>
    if k = key then (k, vs ++ [value]) :: rest else (k, vs) :: Values.add rest key value

/-- Go Values.Set: the key gets the single value, replacing what it had. -/
def Values.Set (m : Values) (key value : GoString) : Values :=
  match m with
  | [] => [(key, [value])]
  | (k, vs) :: rest =>
    if k = key then (k, [value]) :: rest else (k, vs) :: Values.Set rest key value

/-- Loop of url.ParseQuery over the settings separated by &: empty settings
and settings with a malformed escape are passed over. -/
def parseQueryPairs : List GoString → Values → Values
  | [], m => m
  | kv :: rest, m =>
    if kv = [] then parseQueryPairs rest m
    else
      match QueryUnescape (Cut kv 61).1, QueryUnescape ((Cut kv 61).2.getD []) with
      | some key, some value => parseQueryPairs rest (m.add key value)
      | _, _ => parseQueryPairs rest m

/-- Go (*URL).Query: the parsed RawQuery. -/
def URL.Query (u : URL) : Values := parseQueryPairs (Split u.RawQuery 38) []

/-- Byte-wise lexicographic order of strings, the order of sort.Strings. -/
def stringLess : GoString → GoString → Bool
  | [], [] => false
  | [], _ :: _ => true
  | _ :: _, [] => false
  | a :: s, b :: t => a < b || (a == b && stringLess s t)

/-- Insertion of an entry into a list of entries sorted by key. -/
def insertByKey (e : GoString × List GoString) : Values → Values
  | [] => [e]
  | x :: rest => if stringLess e.1 x.1 then e :: x :: rest else x :: insertByKey e rest

/-- The entries of a map in the order of their keys. -/
def sortByKey : Values → Values
  | [] => []
  | e :: rest => insertByKey e (sortByKey rest)

/-- The settings key=value of one key, keys and values escaped. -/
def encodeKey (key : GoString) (vs : List GoString) : List GoString :=
  vs.map (fun v => QueryEscape key ++ 61 :: QueryEscape v)

/-- Joins strings with the separator byte & between them. -/
def joinAmp : List GoString → GoString
  | [] => []
  | [x] => x
  | x :: y :: rest => x ++ 38 :: joinAmp (y :: rest)

/-- Go Values.Encode: the form key=value&key=value with the keys sorted. -/
def Values.Encode (m : Values) : GoString :=
  joinAmp ((sortByKey m).flatMap (fun e => encodeKey e.1 e.2))

/-- Go (*URL).String for a URL with scheme and host whose host and path need
no escaping. -/
def URL.String (u : URL) : GoString :=
  (if u.Scheme ≠ [] then u.Scheme ++ [58] else []) ++
  (if u.Scheme ≠ [] ∨ u.Host ≠ [] then
    (if u.Host ≠ [] ∨ u.Path ≠ [] then [47, 47] else []) ++ u.Host else []) ++
  (if u.Path ≠ [] ∧ u.Path.head? ≠ some 47 ∧ u.Host ≠ [] then [47] else []) ++
  u.Path ++
  (if u.RawQuery ≠ [] then 63 :: u.RawQuery else [])

/-! ## The program -/

/-- Function converts Wei to Ether and return Ether amount in big.Float type. -/
def weiToEther (wei : Int) : BigFloat :=
  Quo (SetInt wei) NewFloat1e18

/-- The function getAPIKey. The argument is what ioutil.ReadFile("config.ini")
gives: the bytes of the file, or none for a read error, on which handleError
ends the process. -/
def getAPIKey (configIni : Option GoString) : Go GoString :=
  match configIni with
  | none => .error .fatal
  | some APIKeyString => slice APIKeyString 11 ((APIKeyString.length : Int) - 1)

/-- What getBlockNumberInHex leaves behind: the status written to the response
(none when handleHTTPStatus is not called), the value stored in
blockNumberGlobal, and the returned string. -/
structure BlockNumber where
  /-- Status code passed to handleHTTPStatus, if it is called. -/
  status : Option Nat
  /-- The new value of the variable blockNumberGlobal. -/
  blockNumberGlobal : Int
  /-- The returned string. -/
  hex : GoString
  deriving DecidableEq, Repr

/-- The function getBlockNumberInHex, on the request path r.URL.Path. -/
def getBlockNumberInHex (path : GoString) : Go BlockNumber := do
  let text ← slice path (Index path (bytes "block") + 6) (Index path (bytes "/total"))
  let parsed := ParseInt text
  let blockNumberInt := parsed.1
  let status := if parsed.2 ≠ none then some 400 else none
  pure ⟨status, blockNumberInt, SprintfHex blockNumberInt⟩

/-- Lines 90 to 96 of getRequestLink: the upstream URL for the block tag
`blockNumber` and the credential `APIKey`. -/
def requestLink (blockNumber APIKey : GoString) : GoString :=
  let stringForRequest := Parse (bytes
    "https://api.etherscan.io/api?module=proxy&action=eth_getBlockByNumber&tag=&boolean=true&apikey=")
  let rawLink := stringForRequest.Query
  let rawLink := rawLink.Set (bytes "tag") blockNumber
  let rawLink := rawLink.Set (bytes "apikey") APIKey
  URL.String { stringForRequest with RawQuery := rawLink.Encode }

/-- The function getRequestLink, on the request path and the result of reading
config.ini. -/
def getRequestLink (path : GoString) (configIni : Option GoString) : Go GoString := do
  let blockNumber ← getBlockNumberInHex path
  let APIKey ← getAPIKey configIni
  pure (requestLink blockNumber.hex APIKey)

/-- Body of the loop of ethereumAnalyzer: one fragment `word`, with the
running total `bigIntFinal`. -/
def addWord (bigIntFinal : Int) (word : GoString) : Go Int := do
  let key ← slice word 1 6
  if key = bytes "value" then
    let hexString ← slice word 9 ((word.length : Int) - 1)
    match SetString hexString with
    | none => .error .nilDeref
    | some bigInt => pure (bigIntFinal + bigInt)
  else pure bigIntFinal

/-- The loop of ethereumAnalyzer over the fragments. -/
def sumWords : Int → List GoString → Go Int
  | bigIntFinal, [] => pure bigIntFinal
  | bigIntFinal, word :: rest => do
    let next ← addWord bigIntFinal word
    sumWords next rest

/-- The value of `bigIntFinal` when the loop of ethereumAnalyzer is left. -/
def totalWei (text : GoString) : Go Int :=
  sumWords 0 (Split text 44)

/-- The function ethereumAnalyzer: the number of transactions and the amount. -/
def ethereumAnalyzer (text : GoString) : Go (Nat × BigFloat) := do
  let amountOfTransactions := Count text (bytes "\"blockHash\"")
  let bigIntFinal ← totalWei text
  let value := weiToEther bigIntFinal
  pure (amountOfTransactions, value)

/-! ## Notions of the specification -/

/-- The decimal numeral of n, as it stands in a request path. -/
def decimalText (n : Nat) : GoString := (Nat.toDigits 10 n).map Char.toNat

/-- The lower-case hexadecimal numeral of n in shortest form: no 0x, no
padding, the single digit 0 for zero. -/
def lowerHexText (n : Nat) : GoString := (Nat.toDigits 16 n).map Char.toNat

/-- A non-empty string of hexadecimal digits. -/
def IsHexText (h : GoString) : Prop := h ≠ [] ∧ ∀ c ∈ h, (unhex c).isSome = true

/-- The number that a string of hexadecimal digits denotes in base 16. -/
def hexValue (h : GoString) : Nat := h.foldl (fun a c => a * 16 + (unhex c).getD 0) 0

/-- The value fragment `"value":"0x<h>"` of a payload. -/
def valueFragment (h : GoString) : GoString := bytes "\"value\":\"0x" ++ h ++ bytes "\""

/-- Whether bytes 1 to 5 of a fragment are `value`. -/
def hasValueKey (w : GoString) : Bool := decide ((w.drop 1).take 5 = bytes "value")

/-- The value text of a fragment: its bytes from index 9 up to, and without, the
last one. -/
def valueText (w : GoString) : GoString := (w.drop 9).take (w.length - 10)

/-- A byte that is a decimal digit. -/
def IsDecimalDigit (c : Nat) : Prop := 48 ≤ c ∧ c ≤ 57

/-- Reading a decimal numeral from the left, starting from the value a. -/
def readDecimal (a : Nat) (l : GoString) : Nat := l.foldl (fun a c => a * 10 + (c - 48)) a

/-- Whether the loop body passes a fragment without a fault. -/
def GoodFragment (w : GoString) : Prop :=
  6 ≤ w.length ∧
    (hasValueKey w = true → 10 ≤ w.length ∧ (SetString (valueText w)).isSome = true)

instance : DecidablePred IsHexText := fun h => by
  unfold IsHexText
  infer_instance

/-- Whether a fragment is a value fragment `"value":"0x<h>"` with a non-empty
hexadecimal text h. -/
def isValueFragment (w : GoString) : Bool :=
  HasPrefix w (bytes "\"value\":\"0x") && decide (w.getLast? = some 34) &&
    decide (13 ≤ w.length) && ((w.drop 11).dropLast).all (fun c => (unhex c).isSome)

/-- The payload of three fragments: a marker, a value fragment and a field with
the key `valued`. -/
def payloadOtherKey : GoString :=
  bytes "\"blockHash\":\"0xab\",\"value\":\"0x10\",\"valued\":1234"

/-- The fragment `"value":"<t>"` of a payload, for a value text t. -/
def valueField (t : GoString) : GoString := bytes "\"value\":\"" ++ t ++ bytes "\""

/-- A non-empty string of digits of the base b, for b up to 10. -/
def IsDigitText (b : Nat) (d : GoString) : Prop := d ≠ [] ∧ ∀ c ∈ d, 48 ≤ c ∧ c < 48 + b

/-- The number that a string of digits denotes in the base b, for b up to 10. -/
def digitsValue (b : Nat) (d : GoString) : Nat := d.foldl (fun a c => a * b + (c - 48)) 0

instance (b : Nat) : DecidablePred (IsDigitText b) := fun d => by
  unfold IsDigitText
  infer_instance

/-! ## Lemmas on the run-time model -/

theorem bitLenAux_spec : ∀ (fuel n : Nat), n ≤ fuel →
    n < 2 ^ bitLenAux fuel n ∧ (0 < n → 2 ^ (bitLenAux fuel n - 1) ≤ n ∧ 0 < bitLenAux fuel n) := by
  intro fuel
  induction fuel with
  | zero =>
    intro n hn
    have : n = 0 := by omega
    subst this
    simp [bitLenAux]
  | succ k ih =>
    intro n hn
    unfold bitLenAux
    by_cases h0 : n = 0
    · simp [h0]
    · simp only [h0, if_false]
      have hk : n / 2 ≤ k := by omega
      obtain ⟨h1, h2⟩ := ih (n / 2) hk
      refine ⟨?_, fun _ => ⟨?_, by omega⟩⟩
      · rw [pow_succ]; omega
      · simp only [Nat.add_sub_cancel]
        by_cases h3 : n / 2 = 0
        · have : bitLenAux k (n / 2) = 0 := by
            cases k <;> simp [bitLenAux, h3]
          rw [this]; simp; omega
        · obtain ⟨h4, h5⟩ := h2 (by omega)
          have : 2 ^ bitLenAux k (n / 2) = 2 ^ (bitLenAux k (n / 2) - 1) * 2 := by
            rw [← pow_succ]; congr 1; omega
          rw [this]; omega

theorem lt_two_pow_BitLen (n : Nat) : n < 2 ^ BitLen n :=
  (bitLenAux_spec n n le_rfl).1

theorem two_pow_BitLen_le (n : Nat) (h : 0 < n) : 2 ^ (BitLen n - 1) ≤ n ∧ 0 < BitLen n :=
  (bitLenAux_spec n n le_rfl).2 h

/-- Rounding to the nearest integer is off by at most one half. -/
theorem nearestEven_error (num den : Nat) (hden : 0 < den) :
    |((nearestEven num den : Nat) : ℚ) * den - num| * 2 ≤ den := by
  have hdiv : den * (num / den) + num % den = num := Nat.div_add_mod num den
  have hmod : num % den < den := Nat.mod_lt _ hden
  have hnum : (num : ℚ) = den * ((num / den : Nat) : ℚ) + ((num % den : Nat) : ℚ) := by
    exact_mod_cast hdiv.symm
  have hr : ((num % den : Nat) : ℚ) < den := by exact_mod_cast hmod
  have hr0 : (0 : ℚ) ≤ ((num % den : Nat) : ℚ) := by positivity
  unfold nearestEven
  simp only
  split_ifs with h
  · have h2 : den ≤ 2 * (num % den) := by omega
    have h2q : (den : ℚ) ≤ 2 * ((num % den : Nat) : ℚ) := by exact_mod_cast h2
    have e : (((num / den + 1 : Nat)) : ℚ) * den - num = den - ((num % den : Nat) : ℚ) := by
      rw [hnum]; push_cast; ring
    rw [e, abs_of_nonneg (by linarith)]; linarith
  · have h2 : 2 * (num % den) ≤ den := by omega
    have h2q : 2 * ((num % den : Nat) : ℚ) ≤ (den : ℚ) := by exact_mod_cast h2
    have e : (((num / den : Nat)) : ℚ) * den - num = - ((num % den : Nat) : ℚ) := by
      rw [hnum]; ring
    rw [e, abs_neg, abs_of_nonneg hr0]; linarith

/-- The scaling of roundQuo puts the quotient at or above 2 ^ (p - 1). -/
theorem roundQuo_scaled_low (p n d : Nat) (hp : 0 < p) (hn : 0 < n) (e0 : Int)
    (he0 : e0 = (BitLen n : Int) - (BitLen d : Int) - (p : Int)) :
    2 ^ (p - 1) * (d * 2 ^ e0.toNat) ≤ n * 2 ^ (-e0).toNat := by
  obtain ⟨hnl, hnpos⟩ := two_pow_BitLen_le n hn
  have hdu : d ≤ 2 ^ BitLen d := (lt_two_pow_BitLen d).le
  rcases le_or_lt 0 e0 with h | h
  · have ha : (-e0).toNat = 0 := by omega
    have hb : BitLen n - 1 = (p - 1) + BitLen d + e0.toNat := by omega
    rw [ha, pow_zero, mul_one]
    calc 2 ^ (p - 1) * (d * 2 ^ e0.toNat)
        ≤ 2 ^ (p - 1) * (2 ^ BitLen d * 2 ^ e0.toNat) := by gcongr
      _ = 2 ^ (BitLen n - 1) := by rw [hb, pow_add, pow_add]; ring
      _ ≤ n := hnl
  · have hb : e0.toNat = 0 := by omega
    have ha : BitLen n - 1 + (-e0).toNat = (p - 1) + BitLen d := by omega
    rw [hb, pow_zero, mul_one]
    calc 2 ^ (p - 1) * d ≤ 2 ^ (p - 1) * 2 ^ BitLen d := by gcongr
      _ = 2 ^ (BitLen n - 1) * 2 ^ (-e0).toNat := by rw [← pow_add, ← pow_add, ha]
      _ ≤ n * 2 ^ (-e0).toNat := by gcongr

/-- Error bound of the rounding step: the rounded number is off by at most
the 2 ^ p-th part of the exact one. -/
theorem roundScaled_error (p num den : Nat) (e0 : Int) (hp : 0 < p) (hden : 0 < den)
    (hlow : 2 ^ (p - 1) * den ≤ num) :
    |((roundScaled p num den e0).1 : ℚ) * (2 : ℚ) ^ (roundScaled p num den e0).2
        - (num : ℚ) / den * (2 : ℚ) ^ e0| * 2 ^ p ≤ (num : ℚ) / den * (2 : ℚ) ^ e0 := by
  have h2p : (2 : ℚ) ^ p = 2 ^ (p - 1) * 2 := by
    rw [← pow_succ]; congr 1; omega
  have hdenq : (0 : ℚ) < den := by exact_mod_cast hden
  -- the denominator and exponent after the optional halving
  obtain ⟨den1, e1, hden1, hval, hlow1, hdef⟩ :
      ∃ (den1 : Nat) (e1 : Int), 0 < den1 ∧
        (num : ℚ) / den1 * (2 : ℚ) ^ e1 = (num : ℚ) / den * (2 : ℚ) ^ e0 ∧
        2 ^ (p - 1) * den1 ≤ num ∧
        roundScaled p num den e0 =
          if nearestEven num den1 = 2 ^ p then (2 ^ (p - 1), e1 + 1)
          else (nearestEven num den1, e1) := by
    by_cases hc : 2 ^ p * den ≤ num
    · refine ⟨2 * den, e0 + 1, by omega, ?_, ?_, ?_⟩
      · rw [zpow_add₀ (two_ne_zero), zpow_one]; push_cast; field_simp; ring
      · have : 2 ^ p = 2 ^ (p - 1) * 2 := by rw [← pow_succ]; congr 1; omega
        rw [this] at hc; linarith
      · simp [roundScaled, hc]
    · exact ⟨den, e0, hden, rfl, hlow, by simp [roundScaled, hc]⟩
  have hden1q : (0 : ℚ) < den1 := by exact_mod_cast hden1
  have hpow : (0 : ℚ) < (2 : ℚ) ^ e1 := zpow_pos (by norm_num) _
  have herr := nearestEven_error num den1 hden1
  have hlowq : (2 : ℚ) ^ (p - 1) * den1 ≤ num := by exact_mod_cast hlow1
  -- the value of the result is the rounded mantissa at exponent e1
  have hres : ((roundScaled p num den e0).1 : ℚ) * (2 : ℚ) ^ (roundScaled p num den e0).2
      = (nearestEven num den1 : ℚ) * (2 : ℚ) ^ e1 := by
    rw [hdef]
    split_ifs with hm
    · simp only [hm]
      rw [zpow_add₀ (two_ne_zero), zpow_one]; push_cast; rw [h2p]; ring
    · rfl
  rw [hres, ← hval]
  have hfact : (nearestEven num den1 : ℚ) * (2 : ℚ) ^ e1 - (num : ℚ) / den1 * (2 : ℚ) ^ e1
      = ((nearestEven num den1 : ℚ) * den1 - num) * ((2 : ℚ) ^ e1 / den1) := by
    field_simp
    ring
  rw [hfact, abs_mul, abs_of_pos (div_pos hpow hden1q)]
  have h1 : |(nearestEven num den1 : ℚ) * den1 - num| * ((2 : ℚ) ^ e1 / den1) * 2 ^ p
      = (|(nearestEven num den1 : ℚ) * den1 - num| * 2) * ((2 : ℚ) ^ (p - 1) * (2 : ℚ) ^ e1 / den1) := by
    rw [h2p]; ring
  rw [h1]
  calc (|(nearestEven num den1 : ℚ) * den1 - num| * 2) * ((2 : ℚ) ^ (p - 1) * (2 : ℚ) ^ e1 / den1)
      ≤ (den1 : ℚ) * ((2 : ℚ) ^ (p - 1) * (2 : ℚ) ^ e1 / den1) := by
        apply mul_le_mul_of_nonneg_right herr
        positivity
    _ = (2 : ℚ) ^ (p - 1) * den1 * ((2 : ℚ) ^ e1 / den1) := by field_simp; ring
    _ ≤ (num : ℚ) * ((2 : ℚ) ^ e1 / den1) := by
        apply mul_le_mul_of_nonneg_right hlowq
        positivity
    _ = (num : ℚ) / den1 * (2 : ℚ) ^ e1 := by field_simp

/-- Error bound of the rounded quotient: it is off by at most the 2 ^ p-th
part of the exact quotient. -/
theorem roundQuo_error (p n d : Nat) (hp : 0 < p) (hn : 0 < n) (hd : 0 < d) :
    |((roundQuo p n d).1 : ℚ) * (2 : ℚ) ^ (roundQuo p n d).2 - (n : ℚ) / d| * 2 ^ p
      ≤ (n : ℚ) / d := by
  have hdq : (d : ℚ) ≠ 0 := by exact_mod_cast hd.ne'
  have key : ∀ e0 : Int, (((n * 2 ^ (-e0).toNat : Nat) : ℚ)) / ((d * 2 ^ e0.toNat : Nat) : ℚ)
      * (2 : ℚ) ^ e0 = (n : ℚ) / d := by
    intro e0
    have he : e0 = (e0.toNat : Int) - ((-e0).toNat : Int) := by omega
    have h2 : (2 : ℚ) ^ e0 = (2 : ℚ) ^ e0.toNat / (2 : ℚ) ^ (-e0).toNat := by
      conv_lhs => rw [he]
      rw [zpow_sub₀ (two_ne_zero), zpow_natCast, zpow_natCast]
    rw [h2]; push_cast; field_simp; ring
  have hlow := roundQuo_scaled_low p n d hp hn _ rfl
  have hden : 0 < d * 2 ^ ((BitLen n : Int) - (BitLen d : Int) - (p : Int)).toNat := by positivity
  have h := roundScaled_error p _ _ ((BitLen n : Int) - (BitLen d : Int) - (p : Int)) hp hden hlow
  rw [key] at h
  exact h

/-- The value of weiToEther on zero is zero. -/
theorem weiToEther_zero : (weiToEther 0).toRat = 0 := by
  simp [weiToEther, Quo, SetInt, BigFloat.toRat]

/-- The value of weiToEther differs from wei / 10 ^ 18 by less than 10 ^ -18. -/
theorem weiToEther_error (w : Nat) :
    |(weiToEther (w : Int)).toRat - (w : ℚ) / 10 ^ 18| < 1 / 10 ^ 18 := by
  rcases Nat.eq_zero_or_pos w with h0 | hw
  · subst h0
    have := weiToEther_zero
    simp only [Nat.cast_zero] at *
    rw [this]; norm_num
  · have hp : 0 < max (max (BitLen w) 64) 53 := by omega
    have hwp : w < 2 ^ max (max (BitLen w) 64) 53 :=
      lt_of_lt_of_le (lt_two_pow_BitLen w)
        (Nat.pow_le_pow_right (by norm_num) (by omega))
    have hwpq : (w : ℚ) < (2 : ℚ) ^ max (max (BitLen w) 64) 53 := by exact_mod_cast hwp
    have h5 : 0 < 5 ^ 18 := by norm_num
    have herr := roundQuo_error (max (max (BitLen w) 64) 53) w (5 ^ 18) hp hw h5
    have hval : (weiToEther (w : Int)).toRat
        = ((roundQuo (max (max (BitLen w) 64) 53) w (5 ^ 18)).1 : ℚ)
          * (2 : ℚ) ^ (roundQuo (max (max (BitLen w) 64) 53) w (5 ^ 18)).2 / 2 ^ 18 := by
      have hne : w ≠ 0 := hw.ne'
      simp only [weiToEther, Quo, SetInt, NewFloat1e18, BigFloat.toRat, Int.natAbs_ofNat, hne,
        if_false]
      have : ¬ ((w : Int) < 0) := by omega
      simp only [this, decide_False, bne_self_eq_false, Bool.false_eq_true, if_false, one_mul]
      rw [add_zero, zpow_sub₀ (two_ne_zero)]
      norm_num
      ring
    have hsplit : (w : ℚ) / 10 ^ 18 = (w : ℚ) / ((5 ^ 18 : Nat) : ℚ) / 2 ^ 18 := by
      push_cast; rw [div_div]; norm_num
    rw [hval, hsplit, ← sub_div, abs_div, abs_of_pos (by positivity : (0 : ℚ) < 2 ^ 18)]
    set m := ((roundQuo (max (max (BitLen w) 64) 53) w (5 ^ 18)).1 : ℚ)
          * (2 : ℚ) ^ (roundQuo (max (max (BitLen w) 64) 53) w (5 ^ 18)).2 with hm
    set P := (2 : ℚ) ^ max (max (BitLen w) 64) 53 with hP
    have hPpos : 0 < P := by positivity
    have h1 : |m - (w : ℚ) / ((5 ^ 18 : Nat) : ℚ)| < 1 / ((5 ^ 18 : Nat) : ℚ) := by
      have h2 : |m - (w : ℚ) / ((5 ^ 18 : Nat) : ℚ)| ≤ (w : ℚ) / ((5 ^ 18 : Nat) : ℚ) / P := by
        rw [le_div_iff₀ hPpos]; exact herr
      have h3 : (w : ℚ) / ((5 ^ 18 : Nat) : ℚ) / P < 1 / ((5 ^ 18 : Nat) : ℚ) := by
        rw [div_div, div_lt_div_iff₀ (by positivity) (by positivity)]
        have : (0 : ℚ) < ((5 ^ 18 : Nat) : ℚ) := by positivity
        nlinarith
      exact lt_of_le_of_lt h2 h3
    have h4 : (1 : ℚ) / 10 ^ 18 = 1 / ((5 ^ 18 : Nat) : ℚ) / 2 ^ 18 := by
      push_cast; rw [div_div]; norm_num
    rw [h4]
    exact div_lt_div_of_pos_right h1 (by positivity)

/-! ### Slices -/

theorem slice_ok (s : GoString) (lo hi : Nat) (h1 : lo ≤ hi) (h2 : hi ≤ s.length) :
    slice s (lo : Int) (hi : Int) = .ok ((s.drop lo).take (hi - lo)) := by
  unfold slice
  have hc : (0 : Int) ≤ (lo : Int) ∧ (lo : Int) ≤ (hi : Int) ∧ (hi : Int) ≤ (s.length : Int) := by
    omega
  rw [if_pos hc]
  have e1 : (lo : Int).toNat = lo := by omega
  have e2 : ((hi : Int) - (lo : Int)).toNat = hi - lo := by omega
  rw [e1, e2]

theorem slice_fault (s : GoString) (lo hi : Int)
    (h : ¬ (0 ≤ lo ∧ lo ≤ hi ∧ hi ≤ (s.length : Int))) :
    slice s lo hi = .error .sliceBounds := by
  unfold slice
  rw [if_neg h]

/-! ### Decimal and hexadecimal numerals -/

theorem digitChar_decimal (d : Nat) (h : d < 10) : (Nat.digitChar d).toNat = 48 + d := by
  interval_cases d <;> rfl

theorem digitChar_lowerHex (d : Nat) (h : d < 16) : (Nat.digitChar d).toNat = lowerHexDigit d := by
  interval_cases d <;> rfl

/-- The bytes of a numeral made by toDigitsCore in base 10 are decimal digits. -/
theorem toDigitsCore_decimal : ∀ (fuel n : Nat) (ds : List Char),
    (∀ c ∈ ds, IsDecimalDigit c.toNat) →
    ∀ c ∈ Nat.toDigitsCore 10 fuel n ds, IsDecimalDigit c.toNat := by
  intro fuel
  induction fuel with
  | zero => intro n ds h; simpa [Nat.toDigitsCore] using h
  | succ k ih =>
    intro n ds h
    have hd : IsDecimalDigit (Nat.digitChar (n % 10)).toNat := by
      rw [digitChar_decimal _ (Nat.mod_lt _ (by norm_num))]
      unfold IsDecimalDigit
      have := Nat.mod_lt n (by norm_num : 0 < 10)
      omega
    have hcons : ∀ c ∈ Nat.digitChar (n % 10) :: ds, IsDecimalDigit c.toNat := by
      intro c hc
      rcases List.mem_cons.mp hc with rfl | hc
      · exact hd
      · exact h c hc
    unfold Nat.toDigitsCore
    simp only
    split_ifs
    · exact hcons
    · exact ih _ _ hcons

theorem toDigitsCore_ne_nil : ∀ (b fuel n : Nat) (ds : List Char), ds ≠ [] →
    Nat.toDigitsCore b fuel n ds ≠ [] := by
  intro b fuel
  induction fuel with
  | zero => intro n ds h; simpa [Nat.toDigitsCore] using h
  | succ k ih =>
    intro n ds _
    unfold Nat.toDigitsCore
    simp only
    split_ifs
    · simp
    · exact ih _ _ (by simp)

theorem readDecimal_toDigitsCore : ∀ (fuel n : Nat) (ds : List Char), n < fuel →
    readDecimal 0 ((Nat.toDigitsCore 10 fuel n ds).map Char.toNat)
      = readDecimal n (ds.map Char.toNat) := by
  intro fuel
  induction fuel with
  | zero => intro n ds h; omega
  | succ k ih =>
    intro n ds h
    have hd := digitChar_decimal (n % 10) (Nat.mod_lt _ (by norm_num))
    unfold Nat.toDigitsCore
    simp only
    split_ifs with h0
    · have : n % 10 = n := by omega
      simp only [readDecimal, List.map_cons, List.foldl_cons, hd]
      congr 1; omega
    · rw [ih (n / 10) _ (by omega)]
      simp only [readDecimal, List.map_cons, List.foldl_cons, hd]
      congr 1; omega

theorem decimalText_digits (n : Nat) : ∀ c ∈ decimalText n, IsDecimalDigit c := by
  intro c hc
  unfold decimalText at hc
  obtain ⟨x, hx, rfl⟩ := List.mem_map.mp hc
  exact toDigitsCore_decimal (n + 1) n [] (by simp) x hx

theorem decimalText_ne_nil (n : Nat) : decimalText n ≠ [] := by
  unfold decimalText Nat.toDigits Nat.toDigitsCore
  simp only
  split_ifs
  · simp
  · simpa using toDigitsCore_ne_nil 10 n _ _ (by simp)

theorem readDecimal_decimalText (n : Nat) : readDecimal 0 (decimalText n) = n := by
  unfold decimalText Nat.toDigits
  rw [readDecimal_toDigitsCore (n + 1) n [] (by omega)]
  rfl

theorem le_readDecimal : ∀ (l : GoString) (a : Nat), a ≤ readDecimal a l := by
  intro l
  induction l with
  | nil => intro a; exact le_rfl
  | cons c l ih =>
    intro a
    have := ih (a * 10 + (c - 48))
    simp only [readDecimal, List.foldl_cons] at this ⊢
    omega

/-- On a numeral that stays below 2 ^ 64 the loop of ParseUint reads its value. -/
theorem parseUintLoop_decimal : ∀ (l : GoString) (a : Nat), (∀ c ∈ l, IsDecimalDigit c) →
    readDecimal a l < 2 ^ 64 → parseUintLoop l a = (readDecimal a l, none) := by
  intro l
  induction l with
  | nil => intro a _ _; rfl
  | cons c l ih =>
    intro a hd hlt
    have hc : 48 ≤ c ∧ c ≤ 57 := hd c (by simp)
    have hstep : readDecimal a (c :: l) = readDecimal (a * 10 + (c - 48)) l := rfl
    rw [hstep] at hlt ⊢
    have hle := le_readDecimal l (a * 10 + (c - 48))
    have hsmall : a * 10 + (c - 48) < 2 ^ 64 := lt_of_le_of_lt hle hlt
    have hmod : (a * 10 + (c - 48)) % 2 ^ 64 = a * 10 + (c - 48) := Nat.mod_eq_of_lt hsmall
    unfold parseUintLoop
    rw [if_pos hc]
    have h1 : ¬ ((2 ^ 64 - 1) / 10 + 1 ≤ a) := by norm_num at hsmall ⊢; omega
    rw [if_neg h1]
    simp only [hmod]
    have h2 : ¬ (a * 10 + (c - 48) < a * 10 ∨ 2 ^ 64 - 1 < a * 10 + (c - 48)) := by
      norm_num at hsmall ⊢; omega
    rw [if_neg h2]
    exact ih _ (fun x hx => hd x (by simp [hx])) hlt

/-- ParseInt reads the decimal numeral of a number below 2 ^ 63 without error. -/
theorem ParseInt_decimalText (n : Nat) (hn : n < 2 ^ 63) :
    ParseInt (decimalText n) = ((n : Int), none) := by
  have hne := decimalText_ne_nil n
  have hdig := decimalText_digits n
  have hval := readDecimal_decimalText n
  have hloop := parseUintLoop_decimal (decimalText n) 0 hdig (by rw [hval]; omega)
  rw [hval] at hloop
  cases hds : decimalText n with
  | nil => exact absurd hds hne
  | cons c r =>
    rw [hds] at hloop hdig
    have hc : 48 ≤ c ∧ c ≤ 57 := hdig c (by simp)
    have h45 : c ≠ 45 := by omega
    have h43 : ¬ (c = 43 ∨ c = 45) := by omega
    have h43c : c ≠ 43 := by omega
    have hlt : ¬ (9223372036854775808 ≤ n) := by omega
    simp [ParseInt, ParseUint, h45, h43, h43c, hloop, hlt]
/-- The loop of fmt writes the numeral that toDigitsCore makes in base 16. -/
theorem fmtHexLoop_toDigitsCore : ∀ (fuel1 fuel2 u : Nat) (ds : List Char), u < fuel1 →
    u < 16 ^ (fuel2 + 1) →
    fmtHexLoop fuel2 u (ds.map Char.toNat) = (Nat.toDigitsCore 16 fuel1 u ds).map Char.toNat := by
  intro fuel1
  induction fuel1 with
  | zero => intro f2 u ds h; omega
  | succ k ih =>
    intro f2 u ds h hu
    have hd := digitChar_lowerHex (u % 16) (Nat.mod_lt _ (by norm_num))
    unfold Nat.toDigitsCore
    simp only
    cases f2 with
    | zero =>
      have hu16 : u < 16 := by simpa using hu
      have h0 : u / 16 = 0 := by omega
      simp [fmtHexLoop, h0, hd]
    | succ f =>
      unfold fmtHexLoop
      by_cases h16 : 16 ≤ u
      · have h0 : ¬ (u / 16 = 0) := by omega
        rw [if_pos h16, if_neg h0]
        have hlt : u / 16 < 16 ^ (f + 1) := by
          rw [Nat.div_lt_iff_lt_mul (by norm_num)]
          rw [pow_succ] at hu; omega
        have := ih f (u / 16) (Nat.digitChar (u % 16) :: ds) (by omega) hlt
        simpa [hd] using this
      · have h0 : u / 16 = 0 := by omega
        have hm : u % 16 = u := by omega
        rw [if_neg h16, if_pos h0]
        rw [hm] at hd ⊢
        simp [hd]

/-- Sprintf with %x gives the shortest lower-case numeral of a 64-bit number. -/
theorem SprintfHex_natCast (n : Nat) (hn : n < 2 ^ 64) : SprintfHex (n : Int) = lowerHexText n := by
  unfold SprintfHex lowerHexText Nat.toDigits
  have h0 : ¬ ((n : Int) < 0) := by omega
  rw [if_neg h0, Int.natAbs_ofNat]
  have := fmtHexLoop_toDigitsCore (n + 1) 15 n [] (by omega) (by norm_num at hn ⊢; omega)
  simpa using this
/-! ### The markers of the request path -/

theorem bytes_total : bytes "/total" = [47, 116, 111, 116, 97, 108] := rfl

theorem bytes_api_block : bytes "/api/block/" = [47, 97, 112, 105, 47, 98, 108, 111, 99, 107, 47] :=
  rfl

theorem bytes_block : bytes "block" = [98, 108, 111, 99, 107] := rfl

/-- Behind a run of decimal digits the marker /total is found right after it. -/
theorem Index_total_digits : ∀ (ds s : GoString), (∀ c ∈ ds, IsDecimalDigit c) →
    Index (ds ++ (bytes "/total" ++ s)) (bytes "/total") = (ds.length : Int) := by
  intro ds
  induction ds with
  | nil => intro s _; simp [bytes_total, Index, HasPrefix]
  | cons c ds ih =>
    intro s hd
    have hc : 48 ≤ c ∧ c ≤ 57 := hd c (by simp)
    have hne : c ≠ 47 := by omega
    have hrec := ih s (fun x hx => hd x (by simp [hx]))
    have hnn : ¬ ((ds.length : Int) < 0) := by omega
    rw [List.cons_append, Index, hrec]
    simp [bytes_total, HasPrefix, hne, hnn]

theorem Index_block_path (t : GoString) :
    Index (bytes "/api/block/" ++ t) (bytes "block") = 5 := by
  simp [bytes_api_block, bytes_block, Index, HasPrefix]

theorem Index_step (c : Nat) (s substr : GoString) (k : Int)
    (hp : HasPrefix (c :: s) substr = false) (hk : Index s substr = k) (h0 : 0 ≤ k) :
    Index (c :: s) substr = k + 1 := by
  have hnn : ¬ (k < 0) := by omega
  rw [Index, hp, hk]
  simp [hnn]

theorem Index_total_path (ds s : GoString) (hne : ds ≠ []) (hd : ∀ c ∈ ds, IsDecimalDigit c) :
    Index (bytes "/api/block/" ++ (ds ++ (bytes "/total" ++ s))) (bytes "/total")
      = 11 + (ds.length : Int) := by
  have hrec := Index_total_digits ds s hd
  cases ds with
  | nil => exact absurd rfl hne
  | cons c r =>
    have hc : 48 ≤ c ∧ c ≤ 57 := hd c (by simp)
    have h116 : c ≠ 116 := by omega
    have h10 := Index_step 47 _ _ _ (by simp [bytes_total, HasPrefix, h116]) hrec (by omega)
    have h9 := Index_step 107 _ _ _ (by rfl) h10 (by omega)
    have h8 := Index_step 99 _ _ _ (by rfl) h9 (by omega)
    have h7 := Index_step 111 _ _ _ (by rfl) h8 (by omega)
    have h6 := Index_step 108 _ _ _ (by rfl) h7 (by omega)
    have h5 := Index_step 98 _ _ _ (by rfl) h6 (by omega)
    have h4 := Index_step 47 _ _ _ (by rfl) h5 (by omega)
    have h3 := Index_step 105 _ _ _ (by rfl) h4 (by omega)
    have h2 := Index_step 112 _ _ _ (by rfl) h3 (by omega)
    have h1 := Index_step 97 _ _ _ (by rfl) h2 (by omega)
    have h0 := Index_step 47 _ _ _ (by rfl) h1 (by omega)
    rw [bytes_api_block]
    simp only [List.cons_append, List.nil_append] at h0 ⊢
    rw [h0]
    omega

/-! ### The upstream URL -/

/-- The URL of requestLink, written out. -/
theorem requestLink_eq (t c : GoString) :
    requestLink t c
      = bytes "https://api.etherscan.io/api?action=eth_getBlockByNumber&apikey="
        ++ (QueryEscape c ++ (bytes "&boolean=true&module=proxy&tag=" ++ QueryEscape t)) := by
  rfl
/-! ### Integer literals -/

theorem digitValue_hex (c : Nat) (h : (unhex c).isSome = true) :
    c ≠ 95 ∧ digitValue 16 c = (unhex c).getD 0 ∧ digitValue 16 c < 16 := by
  unfold unhex at h ⊢
  unfold digitValue
  split_ifs at h ⊢ <;> simp at h ⊢ <;> omega

/-- On hexadecimal digits the digit loop reads the whole text in base 16. -/
theorem scanDigits_hex : ∀ (h : GoString) (v cnt : Nat) (prev : Prev) (inv : Bool),
    (∀ c ∈ h, (unhex c).isSome = true) →
    scanDigits 16 h v cnt prev inv
      = ⟨h.foldl (fun a c => a * 16 + (unhex c).getD 0) v, cnt + h.length,
          if h = [] then prev else .digit, inv, []⟩ := by
  intro h
  induction h with
  | nil => intro v cnt prev inv _; rfl
  | cons c h ih =>
    intro v cnt prev inv hh
    obtain ⟨h95, hval, hlt⟩ := digitValue_hex c (hh c (by simp))
    have hnot : ¬ (16 ≤ digitValue 16 c) := by omega
    rw [scanDigits, if_neg h95, if_neg hnot, ih _ _ _ _ (fun x hx => hh x (by simp [hx])), hval]
    simp only [List.foldl_cons, List.length_cons, reduceCtorEq, if_false]
    have : cnt + 1 + h.length = cnt + (h.length + 1) := by omega
    rw [this]
    by_cases hnil : h = [] <;> simp [hnil]

/-- The text 0x followed by hexadecimal digits denotes their value in base 16. -/
theorem SetString_hex (h : GoString) (hh : IsHexText h) :
    SetString (48 :: 120 :: h) = some (hexValue h : Int) := by
  obtain ⟨hne, hd⟩ := hh
  have hlen : h.length ≠ 0 := by
    intro h0; exact hne (List.length_eq_zero.mp h0)
  simp [SetString, natScan, scanDigits_hex h 0 0 .digit false hd, hne, hlen, hexValue]

/-- A literal without a minus sign denotes no negative number. -/
theorem SetString_nonneg (s : GoString) (v : Int) (h : SetString s = some v)
    (hs : s.head? ≠ some 45) : 0 ≤ v := by
  cases s with
  | nil => simp [SetString] at h
  | cons c r =>
    have hc : c ≠ 45 := by simpa using hs
    unfold SetString at h
    simp only [hc, decide_False, Bool.false_eq_true, if_false] at h
    split at h
    · simp only [Option.some.injEq] at h
      rw [← h]; exact Int.natCast_nonneg _
    · simp at h

/-! ### The loop of ethereumAnalyzer -/

/-- The loop body, case by case. -/
theorem addWord_eq (acc : Int) (w : GoString) :
    addWord acc w =
      if w.length < 6 then .error .sliceBounds
      else if hasValueKey w = false then .ok acc
      else if w.length < 10 then .error .sliceBounds
      else match SetString (valueText w) with
        | none => .error .nilDeref
        | some v => .ok (acc + v) := by
  unfold addWord
  by_cases h6 : w.length < 6
  · rw [if_pos h6]
    have := slice_fault w 1 6 (by omega)
    rw [this]; rfl
  · rw [if_neg h6]
    have hs := slice_ok w 1 6 (by omega) (by omega)
    have e1 : ((1 : Nat) : Int) = 1 := rfl
    have e6 : ((6 : Nat) : Int) = 6 := rfl
    have e5 : 6 - 1 = 5 := rfl
    rw [e1, e6, e5] at hs
    rw [hs]
    simp only [bind, Except.bind]
    by_cases hk : (w.drop 1).take 5 = bytes "value"
    · have hkey : hasValueKey w = true := decide_eq_true hk
      rw [if_pos hk, hkey, if_neg (by simp)]
      by_cases h10 : w.length < 10
      · rw [if_pos h10]
        have := slice_fault w 9 ((w.length : Int) - 1) (by omega)
        rw [this]
      · rw [if_neg h10]
        have hs2 := slice_ok w 9 (w.length - 1) (by omega) (by omega)
        have e9 : ((9 : Nat) : Int) = 9 := rfl
        have el : ((w.length - 1 : Nat) : Int) = (w.length : Int) - 1 := by omega
        have ev : w.length - 1 - 9 = w.length - 10 := by omega
        rw [e9, el, ev] at hs2
        rw [hs2]
        simp only [valueText]
        cases SetString (List.take (w.length - 10) (List.drop 9 w)) <;> rfl
    · have hkey : hasValueKey w = false := decide_eq_false hk
      rw [if_neg hk, hkey, if_pos rfl]
      rfl

theorem addWord_ok_iff (acc : Int) (w : GoString) :
    (∃ t, addWord acc w = .ok t) ↔ GoodFragment w := by
  rw [addWord_eq]
  unfold GoodFragment
  by_cases h6 : w.length < 6
  · simp [h6]
  · by_cases hk : hasValueKey w = false
    · simp [h6, hk]; omega
    · by_cases h10 : w.length < 10
      · simp [h6, hk, h10]
      · have hk2 : hasValueKey w = true := by simpa using hk
        cases hS : SetString (valueText w) <;> simp [h6, hk2, h10, hS]; omega

theorem addWord_fault (acc : Int) (w : GoString) (e : Fault) (h : addWord acc w = .error e) :
    e = .sliceBounds ∨ e = .nilDeref := by
  rw [addWord_eq] at h
  split_ifs at h
  · cases h; exact Or.inl rfl
  · cases h; exact Or.inl rfl
  · split at h
    · cases h; exact Or.inr rfl
    · cases h

theorem sumWords_cons (acc : Int) (w : GoString) (ws : List GoString) :
    sumWords acc (w :: ws) = (addWord acc w).bind (fun next => sumWords next ws) := rfl

theorem sumWords_ok_iff : ∀ (ws : List GoString) (acc : Int),
    (∃ t, sumWords acc ws = .ok t) ↔ ∀ w ∈ ws, GoodFragment w := by
  intro ws
  induction ws with
  | nil => intro acc; simp [sumWords, pure, Except.pure]
  | cons w ws ih =>
    intro acc
    rw [sumWords_cons]
    constructor
    · rintro ⟨t, ht⟩
      cases ha : addWord acc w with
      | error e => rw [ha] at ht; cases ht
      | ok next =>
        rw [ha] at ht
        have hw := (addWord_ok_iff acc w).mp ⟨next, ha⟩
        have hrest := (ih next).mp ⟨t, ht⟩
        intro x hx
        rcases List.mem_cons.mp hx with rfl | hx
        · exact hw
        · exact hrest x hx
    · intro hall
      obtain ⟨next, ha⟩ := (addWord_ok_iff acc w).mpr (hall w (by simp))
      obtain ⟨t, ht⟩ := (ih next).mpr (fun x hx => hall x (by simp [hx]))
      exact ⟨t, by rw [ha]; exact ht⟩

theorem sumWords_fault : ∀ (ws : List GoString) (acc : Int) (e : Fault),
    sumWords acc ws = .error e → e = .sliceBounds ∨ e = .nilDeref := by
  intro ws
  induction ws with
  | nil => intro acc e h; cases h
  | cons w ws ih =>
    intro acc e h
    rw [sumWords_cons] at h
    cases ha : addWord acc w with
    | error e2 =>
      rw [ha] at h
      cases h
      exact addWord_fault acc w _ ha
    | ok next =>
      rw [ha] at h
      exact ih next e h
/-! ### Value fragments -/

theorem valueFragment_eq (h : GoString) :
    valueFragment h
      = 34 :: 118 :: 97 :: 108 :: 117 :: 101 :: 34 :: 58 :: 34 :: 48 :: 120 :: (h ++ [34]) := rfl

theorem valueFragment_length (h : GoString) : (valueFragment h).length = h.length + 12 := by
  simp [valueFragment_eq]

theorem valueFragment_key (h : GoString) : hasValueKey (valueFragment h) = true := rfl

theorem valueFragment_text (h : GoString) : valueText (valueFragment h) = 48 :: 120 :: h := by
  have hl : (valueFragment h).length - 10 = h.length + 2 := by
    rw [valueFragment_length]; omega
  unfold valueText
  rw [hl, valueFragment_eq]
  simp [List.take_succ_cons]

/-- The loop body adds the base-16 value of a value fragment with the 0x mark. -/
theorem addWord_valueFragment (acc : Int) (h : GoString) (hh : IsHexText h) :
    addWord acc (valueFragment h) = .ok (acc + (hexValue h : Int)) := by
  have h6 : ¬ ((valueFragment h).length < 6) := by rw [valueFragment_length]; omega
  have h10 : ¬ ((valueFragment h).length < 10) := by rw [valueFragment_length]; omega
  rw [addWord_eq, if_neg h6, valueFragment_key, if_neg (by simp), if_neg h10, valueFragment_text,
    SetString_hex h hh]

/-- The loop body leaves the total as it is on a fragment without the value key. -/
theorem addWord_other (acc : Int) (w : GoString) (h6 : 6 ≤ w.length)
    (hk : hasValueKey w = false) : addWord acc w = .ok acc := by
  have h6n : ¬ (w.length < 6) := by omega
  rw [addWord_eq, if_neg h6n, if_pos hk]

/-- The loop sums the values of the value fragments and passes the other
fragments by. -/
theorem sumWords_valueFragments : ∀ (ws hs : List GoString) (acc : Int),
    (∀ w ∈ ws, 6 ≤ w.length) → ws.filter hasValueKey = hs.map valueFragment →
    (∀ h ∈ hs, IsHexText h) →
    sumWords acc ws = .ok (acc + (((hs.map hexValue).sum : Nat) : Int)) := by
  intro ws
  induction ws with
  | nil =>
    intro hs acc _ hf _
    have : hs = [] := by simpa using hf.symm
    subst this
    simp [sumWords, pure, Except.pure]
  | cons w ws ih =>
    intro hs acc hlen hf hhex
    rw [sumWords_cons]
    by_cases hk : hasValueKey w = true
    · rw [List.filter_cons_of_pos hk] at hf
      cases hs with
      | nil => simp at hf
      | cons h hs =>
        simp only [List.map_cons, List.cons.injEq] at hf
        obtain ⟨hw, hrest⟩ := hf
        rw [hw, addWord_valueFragment acc h (hhex h (by simp))]
        have := ih hs (acc + (hexValue h : Int)) (fun x hx => hlen x (by simp [hx])) hrest
          (fun x hx => hhex x (by simp [hx]))
        simp only [Except.bind, this, List.map_cons, List.sum_cons]
        push_cast
        rw [add_assoc]
    · have hk2 : hasValueKey w = false := by simpa using hk
      rw [List.filter_cons_of_neg hk] at hf
      rw [addWord_other acc w (hlen w (by simp)) hk2]
      exact ih hs acc (fun x hx => hlen x (by simp [hx])) hf hhex

/-- Without a fragment that has the value key the total stays as it was. -/
theorem sumWords_no_value : ∀ (ws : List GoString) (acc t : Int),
    (∀ w ∈ ws, hasValueKey w = false) → sumWords acc ws = .ok t → t = acc := by
  intro ws
  induction ws with
  | nil => intro acc t _ h; cases h; rfl
  | cons w ws ih =>
    intro acc t hk h
    rw [sumWords_cons] at h
    have hw := hk w (by simp)
    rw [addWord_eq] at h
    split_ifs at h with h6
    · cases h
    · exact ih acc t (fun x hx => hk x (by simp [hx])) h

/-- Value texts without a minus sign keep a non-negative total non-negative. -/
theorem sumWords_nonneg : ∀ (ws : List GoString) (acc t : Int),
    (∀ w ∈ ws, hasValueKey w = true → (valueText w).head? ≠ some 45) → 0 ≤ acc →
    sumWords acc ws = .ok t → 0 ≤ t := by
  intro ws
  induction ws with
  | nil => intro acc t _ h0 h; cases h; exact h0
  | cons w ws ih =>
    intro acc t hs h0 h
    rw [sumWords_cons] at h
    have hrest : ∀ x ∈ ws, hasValueKey x = true → (valueText x).head? ≠ some 45 :=
      fun x hx => hs x (by simp [hx])
    rw [addWord_eq] at h
    split_ifs at h with h6 hk h10
    · cases h
    · exact ih acc t hrest h0 h
    · cases h
    · have hk2 : hasValueKey w = true := by simpa using hk
      cases hS : SetString (valueText w) with
      | none => rw [hS] at h; cases h
      | some v =>
        rw [hS] at h
        have hv := SetString_nonneg _ v hS (hs w (by simp) hk2)
        exact ih (acc + v) t hrest (by omega) h

/-- The result of ethereumAnalyzer in terms of the total of the loop. -/
theorem ethereumAnalyzer_eq (text : GoString) :
    ethereumAnalyzer text
      = match totalWei text with
        | .ok total => .ok (Count text (bytes "\"blockHash\""), weiToEther total)
        | .error e => .error e := by
  unfold ethereumAnalyzer
  cases totalWei text <;> rfl

/-- The amount for a non-negative total is non-negative. -/
theorem weiToEther_nonneg (total : Int) (h : 0 ≤ total) : 0 ≤ (weiToEther total).toRat := by
  have hneg : decide (total < 0) = false := by simpa using h
  unfold weiToEther Quo SetInt NewFloat1e18
  simp only [hneg]
  split_ifs
  · simp [BigFloat.toRat]
  · simp only [BigFloat.toRat, bne_self_eq_false, Bool.false_eq_true, if_false]
    positivity
/-! ### Query escaping -/

theorem upperHexDigit_unreserved (d : Nat) (h : d < 16) : unreserved (upperHexDigit d) = true := by
  interval_cases d <;> rfl

theorem unhex_upperHexDigit (d : Nat) (h : d < 16) : unhex (upperHexDigit d) = some d := by
  interval_cases d <;> rfl

/-- An escaped string consists of unreserved bytes, the plus sign and the
percent sign. -/
theorem QueryEscape_alphabet : ∀ (s : GoString), ∀ b ∈ QueryEscape s,
    unreserved b = true ∨ b = 43 ∨ b = 37 := by
  intro s
  induction s with
  | nil => intro b hb; simp [QueryEscape] at hb
  | cons c s ih =>
    intro b hb
    unfold QueryEscape at hb
    split_ifs at hb with hu h32
    · rcases List.mem_cons.mp hb with rfl | hb
      · exact Or.inl hu
      · exact ih b hb
    · rcases List.mem_cons.mp hb with rfl | hb
      · exact Or.inr (Or.inl rfl)
      · exact ih b hb
    · rcases List.mem_cons.mp hb with rfl | hb
      · exact Or.inr (Or.inr rfl)
      · rcases List.mem_cons.mp hb with rfl | hb
        · exact Or.inl (upperHexDigit_unreserved _ (Nat.mod_lt _ (by norm_num)))
        · rcases List.mem_cons.mp hb with rfl | hb
          · exact Or.inl (upperHexDigit_unreserved _ (Nat.mod_lt _ (by norm_num)))
          · exact ih b hb

/-- An escaped string holds neither & nor =. -/
theorem QueryEscape_no_separator (s : GoString) :
    38 ∉ QueryEscape s ∧ 61 ∉ QueryEscape s := by
  constructor
  · intro h
    rcases QueryEscape_alphabet s 38 h with h | h | h
    · exact absurd h (by decide)
    · exact absurd h (by decide)
    · exact absurd h (by decide)
  · intro h
    rcases QueryEscape_alphabet s 61 h with h | h | h
    · exact absurd h (by decide)
    · exact absurd h (by decide)
    · exact absurd h (by decide)

theorem unreserved_not_special (c : Nat) (h : unreserved c = true) : c ≠ 37 ∧ c ≠ 43 := by
  constructor
  · rintro rfl; exact absurd h (by decide)
  · rintro rfl; exact absurd h (by decide)

theorem QueryUnescape_cons (c : Nat) (s : GoString) :
    QueryUnescape (c :: s) =
      if c = 37 then
        match s with
        | a :: b :: t =>
          match unhex a, unhex b, QueryUnescape t with
          | some x, some y, some r => some ((x * 16 + y) :: r)
          | _, _, _ => none
        | _ => none
      else
        match QueryUnescape s with
        | some r => some ((if c = 43 then 32 else c) :: r)
        | none => none := by
  cases s with
  | nil => rfl
  | cons a s =>
    cases s with
    | nil => rfl
    | cons b t => rfl

/-- Unescaping an escaped byte string gives the string back. -/
theorem QueryUnescape_QueryEscape : ∀ (s : GoString), (∀ b ∈ s, b < 256) →
    QueryUnescape (QueryEscape s) = some s := by
  intro s
  induction s with
  | nil => intro _; rfl
  | cons c s ih =>
    intro hs
    have hc : c < 256 := hs c (by simp)
    have hrec := ih (fun b hb => hs b (by simp [hb]))
    unfold QueryEscape
    split_ifs with hu h32
    · obtain ⟨h37, h43⟩ := unreserved_not_special c hu
      rw [QueryUnescape_cons, if_neg h37, hrec]
      simp [h43]
    · subst h32
      rw [QueryUnescape_cons, if_neg (by decide), hrec]
      simp
    · rw [QueryUnescape_cons, if_pos rfl]
      simp only [unhex_upperHexDigit _ (Nat.mod_lt (c / 16) (by norm_num : 0 < 16)),
        unhex_upperHexDigit _ (Nat.mod_lt c (by norm_num : 0 < 16)), hrec]
      congr 2
      omega

/-! ### Splitting -/

theorem Split_no_sep : ∀ (a : GoString) (sep : Nat), sep ∉ a → Split a sep = [a] := by
  intro a
  induction a with
  | nil => intro sep _; rfl
  | cons x a ih =>
    intro sep h
    have hx : x ≠ sep := fun e => h (by simp [e])
    have ha : sep ∉ a := fun e => h (by simp [e])
    rw [Split, if_neg hx, ih sep ha]

theorem Split_append_sep : ∀ (a rest : GoString) (sep : Nat), sep ∉ a →
    Split (a ++ sep :: rest) sep = a :: Split rest sep := by
  intro a
  induction a with
  | nil => intro rest sep _; simp [Split]
  | cons x a ih =>
    intro rest sep h
    have hx : x ≠ sep := fun e => h (by simp [e])
    have ha : sep ∉ a := fun e => h (by simp [e])
    rw [List.cons_append, Split, if_neg hx, ih rest sep ha]

/-- The query of the upstream URL. -/
theorem requestLink_parse (t c : GoString) :
    Parse (requestLink t c)
      = ⟨bytes "https", bytes "api.etherscan.io", bytes "/api",
          bytes "action=eth_getBlockByNumber" ++ 38 :: ((bytes "apikey=" ++ QueryEscape c) ++ 38 ::
            (bytes "boolean=true" ++ 38 :: (bytes "module=proxy" ++ 38 ::
              (bytes "tag=" ++ QueryEscape t))))⟩ := by
  rfl

/-- The query of the upstream URL has five settings, in the order of their keys. -/
theorem requestLink_settings (t c : GoString) :
    Split (Parse (requestLink t c)).RawQuery 38
      = [bytes "action=eth_getBlockByNumber", bytes "apikey=" ++ QueryEscape c,
          bytes "boolean=true", bytes "module=proxy", bytes "tag=" ++ QueryEscape t] := by
  have hc := (QueryEscape_no_separator c).1
  have ht := (QueryEscape_no_separator t).1
  have h2 : 38 ∉ bytes "apikey=" ++ QueryEscape c := by
    intro h
    rcases List.mem_append.mp h with h | h
    · exact absurd h (by decide)
    · exact hc h
  have h5 : 38 ∉ bytes "tag=" ++ QueryEscape t := by
    intro h
    rcases List.mem_append.mp h with h | h
    · exact absurd h (by decide)
    · exact ht h
  rw [requestLink_parse]
  simp only
  rw [Split_append_sep _ _ _ (by decide), Split_append_sep _ _ _ h2,
    Split_append_sep _ _ _ (by decide), Split_append_sep _ _ _ (by decide),
    Split_no_sep _ _ h5]

theorem parseQueryPairs_cons (kv : GoString) (rest : List GoString) (m : Values)
    (key value : GoString) (hne : kv ≠ []) (hk : QueryUnescape (Cut kv 61).1 = some key)
    (hv : QueryUnescape ((Cut kv 61).2.getD []) = some value) :
    parseQueryPairs (kv :: rest) m = parseQueryPairs rest (m.add key value) := by
  rw [parseQueryPairs, if_neg hne, hk, hv]

/-- Parsing the query of the upstream URL gives the five keys with the block tag
and the credential as they were. -/
theorem requestLink_query (t c : GoString) (ht : ∀ b ∈ t, b < 256) (hc : ∀ b ∈ c, b < 256) :
    (Parse (requestLink t c)).Query
      = [(bytes "action", [bytes "eth_getBlockByNumber"]), (bytes "apikey", [c]),
          (bytes "boolean", [bytes "true"]), (bytes "module", [bytes "proxy"]),
          (bytes "tag", [t])] := by
  unfold URL.Query
  rw [requestLink_settings]
  have u2 := QueryUnescape_QueryEscape c hc
  have u5 := QueryUnescape_QueryEscape t ht
  rw [parseQueryPairs_cons _ _ _ (bytes "action") (bytes "eth_getBlockByNumber") (by decide)
      (by decide) (by decide),
    parseQueryPairs_cons (bytes "apikey=" ++ QueryEscape c) _ _ (bytes "apikey") c
      (by simp [bytes]) (by rfl) (by exact u2),
    parseQueryPairs_cons _ _ _ (bytes "boolean") (bytes "true") (by decide) (by decide)
      (by decide),
    parseQueryPairs_cons _ _ _ (bytes "module") (bytes "proxy") (by decide) (by decide)
      (by decide),
    parseQueryPairs_cons (bytes "tag=" ++ QueryEscape t) _ _ (bytes "tag") t
      (by simp [bytes]) (by rfl) (by exact u5)]
  rfl
/-! ### Value texts of every base -/

theorem valueField_eq (t : GoString) :
    valueField t = 34 :: 118 :: 97 :: 108 :: 117 :: 101 :: 34 :: 58 :: 34 :: (t ++ [34]) := rfl

theorem valueField_length (t : GoString) : (valueField t).length = t.length + 10 := by
  simp [valueField_eq]

theorem valueField_text (t : GoString) : valueText (valueField t) = t := by
  have hl : (valueField t).length - 10 = t.length := by
    rw [valueField_length]; omega
  unfold valueText
  rw [hl, valueField_eq]
  simp

/-- On a fragment `"value":"<t>"` the loop body adds the integer that
SetString reads from t, and dereferences nil when SetString rejects t. -/
theorem addWord_valueField (acc : Int) (t : GoString) :
    addWord acc (valueField t)
      = match SetString t with
        | none => .error .nilDeref
        | some v => .ok (acc + v) := by
  have h6 : ¬ ((valueField t).length < 6) := by rw [valueField_length]; omega
  have h10 : ¬ ((valueField t).length < 10) := by rw [valueField_length]; omega
  have hk : hasValueKey (valueField t) = true := rfl
  rw [addWord_eq, if_neg h6, hk, if_neg (by simp), if_neg h10, valueField_text]

theorem digitValue_small (b c : Nat) (hb : b ≤ 10) (h : 48 ≤ c ∧ c < 48 + b) :
    c ≠ 95 ∧ digitValue b c = c - 48 ∧ digitValue b c < b := by
  unfold digitValue
  have h1 : 48 ≤ c ∧ c ≤ 57 := by omega
  rw [if_pos h1]
  omega

/-- On digits of a base up to 10 the digit loop reads the whole text. -/
theorem scanDigits_small (b : Nat) (hb : b ≤ 10) : ∀ (d : GoString) (v cnt : Nat) (prev : Prev)
    (inv : Bool), (∀ c ∈ d, 48 ≤ c ∧ c < 48 + b) →
    scanDigits b d v cnt prev inv
      = ⟨d.foldl (fun a c => a * b + (c - 48)) v, cnt + d.length,
          if d = [] then prev else .digit, inv, []⟩ := by
  intro d
  induction d with
  | nil => intro v cnt prev inv _; rfl
  | cons c d ih =>
    intro v cnt prev inv hd
    obtain ⟨h95, hval, hlt⟩ := digitValue_small b c hb (hd c (by simp))
    have hnot : ¬ (b ≤ digitValue b c) := by omega
    rw [scanDigits, if_neg h95, if_neg hnot, ih _ _ _ _ (fun x hx => hd x (by simp [hx])), hval]
    simp only [List.foldl_cons, List.length_cons, reduceCtorEq, if_false]
    have : cnt + 1 + d.length = cnt + (d.length + 1) := by omega
    rw [this]
    by_cases hnil : d = [] <;> simp [hnil]

theorem length_ne_zero_of_ne_nil (d : GoString) (h : d ≠ []) : d.length ≠ 0 :=
  fun h0 => h (List.length_eq_zero.mp h0)

/-- The text 0X followed by hexadecimal digits denotes their value in base 16. -/
theorem SetString_hex_upper (h : GoString) (hh : IsHexText h) :
    SetString (48 :: 88 :: h) = some (hexValue h : Int) := by
  obtain ⟨hne, hd⟩ := hh
  have hlen := length_ne_zero_of_ne_nil h hne
  simp [SetString, natScan, scanDigits_hex h 0 0 .digit false hd, hne, hlen, hexValue]

/-- The texts 0b and 0B followed by binary digits denote their value in base 2. -/
theorem SetString_binary (d : GoString) (hd : IsDigitText 2 d) :
    SetString (48 :: 98 :: d) = some (digitsValue 2 d : Int) ∧
    SetString (48 :: 66 :: d) = some (digitsValue 2 d : Int) := by
  obtain ⟨hne, hd⟩ := hd
  have hlen := length_ne_zero_of_ne_nil d hne
  constructor <;>
    simp [SetString, natScan, scanDigits_small 2 (by norm_num) d 0 0 .digit false hd, hne, hlen,
      digitsValue]

/-- The texts 0o and 0O followed by octal digits denote their value in base 8. -/
theorem SetString_octal (d : GoString) (hd : IsDigitText 8 d) :
    SetString (48 :: 111 :: d) = some (digitsValue 8 d : Int) ∧
    SetString (48 :: 79 :: d) = some (digitsValue 8 d : Int) := by
  obtain ⟨hne, hd⟩ := hd
  have hlen := length_ne_zero_of_ne_nil d hne
  constructor <;>
    simp [SetString, natScan, scanDigits_small 8 (by norm_num) d 0 0 .digit false hd, hne, hlen,
      digitsValue]

/-- The text 0 followed by octal digits denotes their value in base 8. -/
theorem SetString_octal_zero (d : GoString) (hd : IsDigitText 8 d) :
    SetString (48 :: d) = some (digitsValue 8 d : Int) := by
  obtain ⟨hne, hd⟩ := hd
  cases d with
  | nil => exact absurd rfl hne
  | cons c r =>
    have hc : 48 ≤ c ∧ c < 48 + 8 := hd c (by simp)
    have hs := scanDigits_small 8 (by norm_num) (c :: r) 0 0 .digit false hd
    have n1 : ¬ (c = 98 ∨ c = 66) := by omega
    have n2 : ¬ (c = 111 ∨ c = 79) := by omega
    have n3 : ¬ (c = 120 ∨ c = 88) := by omega
    simp [SetString, natScan, n1, n2, n3, hs, digitsValue]

/-- A text of decimal digits that does not start with 0 denotes its value in
base 10. -/
theorem SetString_decimal (d : GoString) (hd : IsDigitText 10 d) (h0 : d.head? ≠ some 48) :
    SetString d = some (digitsValue 10 d : Int) := by
  obtain ⟨hne, hd⟩ := hd
  cases d with
  | nil => exact absurd rfl hne
  | cons c r =>
    have hc : 48 ≤ c ∧ c < 48 + 10 := hd c (by simp)
    have hc0 : c ≠ 48 := by simpa using h0
    have hs := scanDigits_small 10 (by norm_num) (c :: r) 0 0 .dot false hd
    have n45 : c ≠ 45 := by omega
    have n43 : c ≠ 43 := by omega
    have hscan : natScan (c :: r) = (some (digitsValue 10 (c :: r)), []) := by
      unfold natScan
      split
      · rename_i heq; simp at heq; omega
      · rename_i heq; simp at heq; omega
      · simp [hs, digitsValue]
    simp [SetString, n45, n43, hscan]

/-- A minus sign in front of a text without sign negates its value, a plus
sign keeps it. -/
theorem SetString_sign (t : GoString) (v : Int) (h45 : t.head? ≠ some 45)
    (h43 : t.head? ≠ some 43) (h : SetString t = some v) :
    SetString (45 :: t) = some (-v) ∧ SetString (43 :: t) = some v := by
  cases t with
  | nil => simp [SetString] at h
  | cons c r =>
    have n45 : c ≠ 45 := by simpa using h45
    have n43 : c ≠ 43 := by simpa using h43
    unfold SetString at h ⊢
    simp only [n45, n43, or_self, decide_False, Bool.false_eq_true, if_false] at h
    simp only [decide_True, true_or, or_true, if_true, decide_False, Bool.false_eq_true, if_false,
      reduceCtorEq]
    split at h
    · rename_i n heq
      simp only [Option.some.injEq] at h
      subst h
      simp [heq]
    · simp at h

/-! ## The claims -/

/-- C2: for every non-negative number w of base units, weiToEther w times
10 ^ 18 differs from w by less than one base unit, that is, weiToEther w differs
from w / 10 ^ 18 by less than 10 ^ -18; in particular the amount for
345678912345678923123456 is within 10 ^ -18 of 345678.912345678923123456. -/
theorem C2_weiToEther_within_one_base_unit :
    (∀ w : Nat, |(weiToEther (w : Int)).toRat * 10 ^ 18 - (w : ℚ)| < 1 ∧
      |(weiToEther (w : Int)).toRat - (w : ℚ) / 10 ^ 18| < 1 / 10 ^ 18) ∧
    |(weiToEther 345678912345678923123456).toRat - 345678.912345678923123456| < 1 / 10 ^ 18 := by
  refine ⟨fun w => ⟨?_, weiToEther_error w⟩, ?_⟩
  · have h := weiToEther_error w
    have e : (weiToEther (w : Int)).toRat * 10 ^ 18 - (w : ℚ)
        = ((weiToEther (w : Int)).toRat - (w : ℚ) / 10 ^ 18) * 10 ^ 18 := by
      field_simp
    rw [e, abs_mul, abs_of_pos (by positivity : (0 : ℚ) < 10 ^ 18)]
    calc |(weiToEther (w : Int)).toRat - (w : ℚ) / 10 ^ 18| * 10 ^ 18
        < 1 / 10 ^ 18 * 10 ^ 18 := by
          apply mul_lt_mul_of_pos_right h; positivity
      _ = 1 := by norm_num
  · have h := weiToEther_error 345678912345678923123456
    have e : (345678.912345678923123456 : ℚ)
        = ((345678912345678923123456 : Nat) : ℚ) / 10 ^ 18 := by norm_num
    rw [e]
    exact_mod_cast h
/-- C3, as amended: for every block number n below 2 ^ 63 and every suffix s,
getBlockNumberInHex on the path /api/block/<decimal n>/total<s> writes no
status, stores n, and returns the lower-case hexadecimal numeral of n in
shortest form, without 0x and without padding. -/
theorem C3_block_number_hex_below_int64 (n : Nat) (hn : n < 2 ^ 63) (s : GoString) :
    getBlockNumberInHex (bytes "/api/block/" ++ decimalText n ++ bytes "/total" ++ s)
      = .ok ⟨none, (n : Int), lowerHexText n⟩ := by
  have hne := decimalText_ne_nil n
  have hdig := decimalText_digits n
  have hpath : bytes "/api/block/" ++ decimalText n ++ bytes "/total" ++ s
      = bytes "/api/block/" ++ (decimalText n ++ (bytes "/total" ++ s)) := by
    simp only [List.append_assoc]
  have hlen : (bytes "/api/block/").length = 11 := rfl
  have hslice : slice (bytes "/api/block/" ++ (decimalText n ++ (bytes "/total" ++ s)))
      (5 + 6) (11 + ((decimalText n).length : Int)) = .ok (decimalText n) := by
    have h := slice_ok (bytes "/api/block/" ++ (decimalText n ++ (bytes "/total" ++ s)))
      11 (11 + (decimalText n).length) (by omega)
      (by simp only [List.length_append, hlen]; omega)
    have e1 : ((11 : Nat) : Int) = 5 + 6 := rfl
    have e2 : ((11 + (decimalText n).length : Nat) : Int) = 11 + ((decimalText n).length : Int) := by
      push_cast; rfl
    rw [e1, e2] at h
    rw [h, ← hlen, List.drop_left, hlen, Nat.add_sub_cancel_left, List.take_left]
  unfold getBlockNumberInHex
  rw [hpath, Index_block_path, Index_total_path _ _ hne hdig, hslice]
  simp [ParseInt_decimalText n hn, SprintfHex_natCast n (by omega)]

/-- C3, witness: block 11508993 with the suffix /x gives af9d01. -/
theorem C3_block_number_hex_witness :
    getBlockNumberInHex (bytes "/api/block/11508993/total/x")
      = .ok ⟨none, 11508993, bytes "af9d01"⟩ :=
  C3_block_number_hex_below_int64 11508993 (by norm_num) (bytes "/x")

set_option maxRecDepth 100000 in
/-- C3, counterexample: for n = 2 ^ 63 the function reports status 400 and
returns the numeral of 2 ^ 63 - 1, not the numeral 8000000000000000 of n. -/
theorem C3_block_number_hex_fails_at_two_pow_63 :
    getBlockNumberInHex (bytes "/api/block/" ++ decimalText (2 ^ 63) ++ bytes "/total" ++ [])
        = .ok ⟨some 400, 2 ^ 63 - 1, bytes "7fffffffffffffff"⟩ ∧
      lowerHexText (2 ^ 63) = bytes "8000000000000000" ∧
      ¬ (∀ (n : Nat) (s : GoString), ∃ r,
          getBlockNumberInHex (bytes "/api/block/" ++ decimalText n ++ bytes "/total" ++ s) = .ok r ∧
          r.hex = lowerHexText n) := by
  have h1 : getBlockNumberInHex (bytes "/api/block/" ++ decimalText (2 ^ 63) ++ bytes "/total" ++ [])
        = .ok ⟨some 400, 2 ^ 63 - 1, bytes "7fffffffffffffff"⟩ := by decide
  refine ⟨h1, by decide, ?_⟩
  intro h
  obtain ⟨r, hr, hhex⟩ := h (2 ^ 63) []
  rw [h1] at hr
  cases hr
  revert hhex
  decide
set_option maxRecDepth 100000 in
/-- C4, the code at malformed paths: without the block marker the slice
expression panics, or a number elsewhere in the path is accepted; without the
/total marker it panics; text that is no number gives status 400 together
with the numeral of zero; a negative number is accepted without a status. -/
theorem C4_malformed_path_behaviour :
    getBlockNumberInHex (bytes "/api/total") = .error .sliceBounds ∧
    getBlockNumberInHex (bytes "/api/12/total") = .ok ⟨none, 12, bytes "c"⟩ ∧
    getBlockNumberInHex (bytes "/api/block/12") = .error .sliceBounds ∧
    getBlockNumberInHex (bytes "/api/block/abc/total") = .ok ⟨some 400, 0, bytes "0"⟩ ∧
    getBlockNumberInHex (bytes "/api/block//total") = .ok ⟨some 400, 0, bytes "0"⟩ ∧
    getBlockNumberInHex (bytes "/api/block/-5/total") = .ok ⟨none, -5, bytes "-5"⟩ := by
  refine ⟨?_, ?_, ?_, ?_, ?_, ?_⟩ <;> decide

set_option maxRecDepth 100000 in
/-- C8: for every block tag t and every credential c the URL built by
getRequestLink is
https://api.etherscan.io/api?action=eth_getBlockByNumber&apikey=<escape(c)>&boolean=true&module=proxy&tag=<escape(t)>
and getRequestLink builds it from the tag of getBlockNumberInHex and the
credential of getAPIKey. Each value is escaped by itself: the escaped values
hold only unreserved bytes, + and %, so the query splits at & into exactly
five settings, one for each key, in alphabetical order of the keys, and
parsing the query gives back t and c unchanged, whatever bytes they hold.
The credential `a&b=c d/%+` becomes a%26b%3Dc+d%2F%25%2B, and the URL for
block 11508993 is the one of the tests. -/
theorem C8_request_link (t c : GoString) :
    requestLink t c
      = bytes "https://api.etherscan.io/api?action=eth_getBlockByNumber&apikey=" ++ QueryEscape c
        ++ bytes "&boolean=true&module=proxy&tag=" ++ QueryEscape t ∧
    (∀ (path : GoString) (configIni : Option GoString),
      getRequestLink path configIni
        = (getBlockNumberInHex path).bind (fun r =>
            (getAPIKey configIni).bind (fun key => .ok (requestLink r.hex key)))) ∧
    (∀ b ∈ QueryEscape c ++ QueryEscape t, unreserved b = true ∨ b = 43 ∨ b = 37) ∧
    38 ∉ QueryEscape c ∧ 61 ∉ QueryEscape c ∧ 38 ∉ QueryEscape t ∧ 61 ∉ QueryEscape t ∧
    Split (Parse (requestLink t c)).RawQuery 38
      = [bytes "action=eth_getBlockByNumber", bytes "apikey=" ++ QueryEscape c,
          bytes "boolean=true", bytes "module=proxy", bytes "tag=" ++ QueryEscape t] ∧
    ((∀ b ∈ t, b < 256) → (∀ b ∈ c, b < 256) →
      QueryUnescape (QueryEscape t) = some t ∧ QueryUnescape (QueryEscape c) = some c ∧
      (Parse (requestLink t c)).Query
        = [(bytes "action", [bytes "eth_getBlockByNumber"]), (bytes "apikey", [c]),
            (bytes "boolean", [bytes "true"]), (bytes "module", [bytes "proxy"]),
            (bytes "tag", [t])]) ∧
    QueryEscape (bytes "a&b=c d/%+") = bytes "a%26b%3Dc+d%2F%25%2B" ∧
    requestLink (bytes "af9d01") (bytes "a&b=c d/%+")
      = bytes "https://api.etherscan.io/api?action=eth_getBlockByNumber&apikey=a%26b%3Dc+d%2F%25%2B&boolean=true&module=proxy&tag=af9d01" ∧
    getRequestLink (bytes "/api/block/11508993/total/yguyfdgdfgdfg")
        (some (bytes "API_KEY = \"5HHQQC7NM61MC5AQM9DK5PT2TMB4GW59I8\""))
      = .ok (bytes "https://api.etherscan.io/api?action=eth_getBlockByNumber&apikey=5HHQQC7NM61MC5AQM9DK5PT2TMB4GW59I8&boolean=true&module=proxy&tag=af9d01") := by
  refine ⟨?_, fun _ _ => rfl, ?_, (QueryEscape_no_separator c).1, (QueryEscape_no_separator c).2,
    (QueryEscape_no_separator t).1, (QueryEscape_no_separator t).2, requestLink_settings t c,
    fun ht hc => ⟨QueryUnescape_QueryEscape t ht, QueryUnescape_QueryEscape c hc,
      requestLink_query t c ht hc⟩, by decide, by decide, by decide⟩
  · rw [requestLink_eq]
    simp only [List.append_assoc]
  · intro b hb
    rcases List.mem_append.mp hb with hb | hb
    · exact QueryEscape_alphabet c b hb
    · exact QueryEscape_alphabet t b hb

set_option maxRecDepth 100000 in
/-- C8, witness: a credential and a tag with reserved bytes come back from the
parsed query as they were. -/
theorem C8_request_link_witness :
    (Parse (requestLink (bytes "a f&9=d") (bytes "a&b=c d/%+"))).Query
      = [(bytes "action", [bytes "eth_getBlockByNumber"]), (bytes "apikey", [bytes "a&b=c d/%+"]),
          (bytes "boolean", [bytes "true"]), (bytes "module", [bytes "proxy"]),
          (bytes "tag", [bytes "a f&9=d"])] :=
  ((C8_request_link (bytes "a f&9=d") (bytes "a&b=c d/%+")).2.2.2.2.2.2.2.2.1
    (by decide) (by decide)).2.2

/-- C5, the code at the empty payload: the first slice expression panics. -/
theorem C5_empty_payload_faults :
    ethereumAnalyzer (bytes "") = .error .sliceBounds := by
  decide
/-- C1, as amended: for every payload with k occurrences of the transaction
marker, in which every comma-separated fragment has at least 6 bytes and the
fragments with `value` at bytes 1 to 5 are exactly the value fragments
`"value":"0x<h>"` for the non-empty hexadecimal texts h of the list hs,
ethereumAnalyzer returns the count k and the amount weiToEther of the exact
integer sum of the values of hs. -/
theorem C1_count_and_exact_sum (text : GoString) (k : Nat) (hs : List GoString)
    (hcount : Count text (bytes "\"blockHash\"") = k)
    (hlen : ∀ w ∈ Split text 44, 6 ≤ w.length)
    (hfrag : (Split text 44).filter hasValueKey = hs.map valueFragment)
    (hhex : ∀ h ∈ hs, IsHexText h) :
    ethereumAnalyzer text = .ok (k, weiToEther (((hs.map hexValue).sum : Nat) : Int)) := by
  have h := sumWords_valueFragments (Split text 44) hs 0 hlen hfrag hhex
  rw [ethereumAnalyzer_eq, totalWei, h, hcount, zero_add]

set_option maxRecDepth 100000 in
/-- C1, witness: one marker and the value fragments 0x10 and 0xde0b6b3a7640000. -/
theorem C1_count_and_exact_sum_witness :
    ethereumAnalyzer
        (bytes "\"blockHash\":\"0xab\",\"value\":\"0x10\",\"value\":\"0xde0b6b3a7640000\"")
      = .ok (1, weiToEther (((([bytes "10", bytes "de0b6b3a7640000"].map hexValue).sum : Nat)
          : Int))) :=
  C1_count_and_exact_sum _ 1 [bytes "10", bytes "de0b6b3a7640000"]
    (by decide) (by decide) (by decide) (by decide)

set_option maxRecDepth 100000 in
/-- C1, counterexample: the payload
`"blockHash":"0xab","value":"0x10","valued":1234` has one marker and the one
value fragment `"value":"0x10"`; its third fragment is no value fragment, yet
has `value` at bytes 1 to 5, and its bytes 9 to 11 are added: the total is
139, not 16. So the claim, for payloads with k markers whose value fragments
are those of the hexadecimal texts hs, fails. -/
theorem C1_fails_on_other_key :
    Count payloadOtherKey (bytes "\"blockHash\"") = 1 ∧
    Split payloadOtherKey 44
      = [bytes "\"blockHash\":\"0xab\"", valueFragment (bytes "10"), bytes "\"valued\":1234"] ∧
    (Split payloadOtherKey 44).filter isValueFragment = [valueFragment (bytes "10")] ∧
    hexValue (bytes "10") = 16 ∧
    totalWei payloadOtherKey = .ok 139 ∧
    ethereumAnalyzer payloadOtherKey = .ok (1, weiToEther 139) ∧
    ¬ (∀ (text : GoString) (k : Nat) (hs : List GoString),
        Count text (bytes "\"blockHash\"") = k →
        (Split text 44).filter isValueFragment = hs.map valueFragment →
        hs.length = k → (∀ h ∈ hs, IsHexText h) →
        ethereumAnalyzer text = .ok (k, weiToEther (((hs.map hexValue).sum : Nat) : Int))) := by
  refine ⟨by decide, by decide, by decide, by decide, by decide, by decide, ?_⟩
  intro hall
  have h := hall payloadOtherKey 1 [bytes "10"] (by decide) (by decide) (by decide) (by decide)
  revert h
  decide

set_option maxRecDepth 100000 in
/-- C6, the code at a value fragment with unparsable text: SetString gives nil
and the addition dereferences it, where the claim has the fragment passed over
and the amount of the other value fragment, weiToEther 16, returned. -/
theorem C6_unparsable_value_faults :
    ethereumAnalyzer (bytes "\"blockHash\":\"0xab\",\"value\":\"0x10\",\"value\":\"pending\"")
      = .error .nilDeref ∧
    ethereumAnalyzer (bytes "\"blockHash\":\"0xab\",\"value\":\"0x10\"")
      = .ok (1, weiToEther 16) := by
  refine ⟨by decide, by decide⟩

set_option maxRecDepth 100000 in
/-- C7, counterexample: the payload `"value":"0x10"` has no transaction marker
and the total 16; the payload with the value text -0x10 has the total -16. So
the invariant of the claim fails on payloads on which the call returns. -/
theorem C7_invariant_fails :
    ethereumAnalyzer (bytes "\"value\":\"0x10\"") = .ok (0, weiToEther 16) ∧
    totalWei (bytes "\"value\":\"0x10\"") = .ok 16 ∧
    (weiToEther 16).toRat ≠ 0 ∧
    totalWei (bytes "\"blockHash\":\"0xab\",\"value\":\"-0x10\"") = .ok (-16) ∧
    ¬ (∀ (text : GoString) (k : Nat) (amount : BigFloat),
        ethereumAnalyzer text = .ok (k, amount) →
        ∃ total : Int, totalWei text = .ok total ∧ 0 ≤ total ∧ 0 ≤ k ∧ (k = 0 → total = 0)) := by
  refine ⟨by decide, by decide, ?_, by decide, ?_⟩
  · have h : weiToEther 16 = ⟨64, false, 10633823966279326983, -119⟩ := by decide
    rw [h]
    norm_num [BigFloat.toRat]
  · intro hall
    obtain ⟨total, ht, _, _, h0⟩ :=
      hall (bytes "\"value\":\"0x10\"") 0 (weiToEther 16) (by decide)
    have h16 : totalWei (bytes "\"value\":\"0x10\"") = .ok 16 := by decide
    rw [h16] at ht
    cases ht
    exact absurd (h0 rfl) (by decide)

/-- C7, as amended: when ethereumAnalyzer returns the count k and an amount,
the amount is weiToEther of the total of the loop, k is the number of markers
and is not negative; the total is 0 (and so is the amount) when no fragment
has `value` at bytes 1 to 5, and the total and the amount are not negative
when no value text starts with a minus sign. The total is not tied to k. -/
theorem C7_aggregate_invariant (text : GoString) (k : Nat) (amount : BigFloat)
    (h : ethereumAnalyzer text = .ok (k, amount)) :
    ∃ total : Int, totalWei text = .ok total ∧ amount = weiToEther total ∧
      k = Count text (bytes "\"blockHash\"") ∧ 0 ≤ k ∧
      ((∀ w ∈ Split text 44, hasValueKey w = false) → total = 0 ∧ amount.toRat = 0) ∧
      ((∀ w ∈ Split text 44, hasValueKey w = true → (valueText w).head? ≠ some 45) →
        0 ≤ total ∧ 0 ≤ amount.toRat) := by
  rw [ethereumAnalyzer_eq] at h
  cases ht : totalWei text with
  | error e => rw [ht] at h; cases h
  | ok total =>
    rw [ht] at h
    simp only [Except.ok.injEq, Prod.mk.injEq] at h
    obtain ⟨hk, ha⟩ := h
    refine ⟨total, rfl, ha.symm, hk.symm, Nat.zero_le _, ?_, ?_⟩
    · intro hno
      have h0 := sumWords_no_value (Split text 44) 0 total hno ht
      refine ⟨h0, ?_⟩
      rw [← ha, h0]; exact weiToEther_zero
    · intro hpos
      have h0 := sumWords_nonneg (Split text 44) 0 total hpos le_rfl ht
      exact ⟨h0, by rw [← ha]; exact weiToEther_nonneg total h0⟩

set_option maxRecDepth 100000 in
/-- C7, witness: the payload `"value":"0x10"` without a marker. -/
theorem C7_aggregate_invariant_witness :
    ∃ total : Int, totalWei (bytes "\"value\":\"0x10\"") = .ok total ∧
      weiToEther 16 = weiToEther total ∧
      0 = Count (bytes "\"value\":\"0x10\"") (bytes "\"blockHash\"") ∧ 0 ≤ 0 ∧
      ((∀ w ∈ Split (bytes "\"value\":\"0x10\"") 44, hasValueKey w = false) →
        total = 0 ∧ (weiToEther 16).toRat = 0) ∧
      ((∀ w ∈ Split (bytes "\"value\":\"0x10\"") 44,
          hasValueKey w = true → (valueText w).head? ≠ some 45) →
        0 ≤ total ∧ 0 ≤ (weiToEther 16).toRat) :=
  C7_aggregate_invariant (bytes "\"value\":\"0x10\"") 0 (weiToEther 16) (by decide)

/-- C9, as amended: on every value fragment `"value":"<t>"` the loop of
ethereumAnalyzer adds to the total the integer that the text t denotes as a
literal of base 0, the base being selected by the prefix of t: for 0x or 0X
and a non-empty string h of hexadecimal digits, the base-16 value of h; for
0b or 0B and binary digits, their base-2 value; for 0o, 0O or 0 and octal
digits, their base-8 value; for decimal digits that do not start with 0, and
for the single digit 0, their base-10 value; a minus sign in front of a text
without sign negates its value and a plus sign keeps it, as for -0x and +0x.
So the mark 0x is needed for base 16: the fragment `"value":"10"` adds 10. -/
theorem C9_value_fragment_base (acc : Int) (h : GoString) (hh : IsHexText h) :
    addWord acc (valueFragment h) = .ok (acc + (hexValue h : Int)) ∧
    addWord acc (valueField (bytes "0x" ++ h)) = .ok (acc + (hexValue h : Int)) ∧
    addWord acc (valueField (bytes "0X" ++ h)) = .ok (acc + (hexValue h : Int)) ∧
    (∀ d, IsDigitText 2 d →
      addWord acc (valueField (bytes "0b" ++ d)) = .ok (acc + (digitsValue 2 d : Int)) ∧
      addWord acc (valueField (bytes "0B" ++ d)) = .ok (acc + (digitsValue 2 d : Int))) ∧
    (∀ d, IsDigitText 8 d →
      addWord acc (valueField (bytes "0o" ++ d)) = .ok (acc + (digitsValue 8 d : Int)) ∧
      addWord acc (valueField (bytes "0O" ++ d)) = .ok (acc + (digitsValue 8 d : Int)) ∧
      addWord acc (valueField (bytes "0" ++ d)) = .ok (acc + (digitsValue 8 d : Int))) ∧
    (∀ d, IsDigitText 10 d → d.head? ≠ some 48 →
      addWord acc (valueField d) = .ok (acc + (digitsValue 10 d : Int))) ∧
    addWord acc (valueField (bytes "0")) = .ok (acc + 0) ∧
    (∀ (t : GoString) (v : Int), t.head? ≠ some 45 → t.head? ≠ some 43 →
      addWord acc (valueField t) = .ok (acc + v) →
      addWord acc (valueField (bytes "-" ++ t)) = .ok (acc + -v) ∧
      addWord acc (valueField (bytes "+" ++ t)) = .ok (acc + v)) ∧
    addWord acc (valueField (bytes "-0x" ++ h)) = .ok (acc + -(hexValue h : Int)) ∧
    addWord acc (valueField (bytes "+0x" ++ h)) = .ok (acc + (hexValue h : Int)) ∧
    addWord acc (bytes "\"value\":\"10\"") = .ok (acc + 10) := by
  have hx := SetString_hex h hh
  have hsx := SetString_sign (48 :: 120 :: h) _ (by simp) (by simp) hx
  refine ⟨addWord_valueFragment acc h hh, ?_, ?_, ?_, ?_, ?_, ?_, ?_, ?_, ?_, ?_⟩
  · rw [addWord_valueField]
    show (match SetString (48 :: 120 :: h) with
      | none => Except.error Fault.nilDeref
      | some v => Except.ok (acc + v)) = _
    rw [hx]
  · rw [addWord_valueField]
    show (match SetString (48 :: 88 :: h) with
      | none => Except.error Fault.nilDeref
      | some v => Except.ok (acc + v)) = _
    rw [SetString_hex_upper h hh]
  · intro d hd
    obtain ⟨h1, h2⟩ := SetString_binary d hd
    constructor
    · rw [addWord_valueField]
      show (match SetString (48 :: 98 :: d) with
        | none => Except.error Fault.nilDeref
        | some v => Except.ok (acc + v)) = _
      rw [h1]
    · rw [addWord_valueField]
      show (match SetString (48 :: 66 :: d) with
        | none => Except.error Fault.nilDeref
        | some v => Except.ok (acc + v)) = _
      rw [h2]
  · intro d hd
    obtain ⟨h1, h2⟩ := SetString_octal d hd
    refine ⟨?_, ?_, ?_⟩
    · rw [addWord_valueField]
      show (match SetString (48 :: 111 :: d) with
        | none => Except.error Fault.nilDeref
        | some v => Except.ok (acc + v)) = _
      rw [h1]
    · rw [addWord_valueField]
      show (match SetString (48 :: 79 :: d) with
        | none => Except.error Fault.nilDeref
        | some v => Except.ok (acc + v)) = _
      rw [h2]
    · rw [addWord_valueField]
      show (match SetString (48 :: d) with
        | none => Except.error Fault.nilDeref
        | some v => Except.ok (acc + v)) = _
      rw [SetString_octal_zero d hd]
  · intro d hd h0
    rw [addWord_valueField, SetString_decimal d hd h0]
  · rw [addWord_valueField]
    rfl
  · intro t v h45 h43 hv
    rw [addWord_valueField] at hv
    cases hS : SetString t with
    | none => rw [hS] at hv; cases hv
    | some u =>
      rw [hS] at hv
      have huv : u = v := by
        simp only [Except.ok.injEq] at hv
        omega
      subst huv
      obtain ⟨h1, h2⟩ := SetString_sign t u h45 h43 hS
      constructor
      · rw [addWord_valueField]
        show (match SetString (45 :: t) with
          | none => Except.error Fault.nilDeref
          | some v => Except.ok (acc + v)) = _
        rw [h1]
      · rw [addWord_valueField]
        show (match SetString (43 :: t) with
          | none => Except.error Fault.nilDeref
          | some v => Except.ok (acc + v)) = _
        rw [h2]
  · rw [addWord_valueField]
    show (match SetString (45 :: 48 :: 120 :: h) with
      | none => Except.error Fault.nilDeref
      | some v => Except.ok (acc + v)) = _
    rw [hsx.1]
  · rw [addWord_valueField]
    show (match SetString (43 :: 48 :: 120 :: h) with
      | none => Except.error Fault.nilDeref
      | some v => Except.ok (acc + v)) = _
    rw [hsx.2]
  · rw [addWord_eq]
    rfl

/-- C9, witness: the value fragment for one Ether, 0xde0b6b3a7640000. -/
theorem C9_value_fragment_base_witness :
    addWord 0 (valueFragment (bytes "de0b6b3a7640000"))
        = .ok (0 + (hexValue (bytes "de0b6b3a7640000") : Int)) ∧
    addWord 0 (bytes "\"value\":\"10\"") = .ok (0 + 10) :=
  ⟨(C9_value_fragment_base 0 (bytes "de0b6b3a7640000") (by decide)).1,
    (C9_value_fragment_base 0 (bytes "de0b6b3a7640000") (by decide)).2.2.2.2.2.2.2.2.2.2⟩

set_option maxRecDepth 100000 in
/-- C9, counterexample: the fragment `"value":"10"` adds 10 to the total, while
the base-16 value of its digits is 16; the fragment `"value":"ff"`, without the
0x mark, is not read at all. So the claim, for every fragment `"value":"<h>"`
with a non-empty hexadecimal text h, fails. -/
theorem C9_fails_without_0x :
    addWord 0 (bytes "\"value\":\"10\"") = .ok 10 ∧
    totalWei (bytes "\"value\":\"10\"") = .ok 10 ∧
    hexValue (bytes "10") = 16 ∧
    IsHexText (bytes "10") ∧
    addWord 0 (bytes "\"value\":\"ff\"") = .error .nilDeref ∧
    ¬ (∀ (acc : Int) (h : GoString), IsHexText h →
        addWord acc (bytes "\"value\":\"" ++ h ++ bytes "\"") = .ok (acc + (hexValue h : Int))) := by
  refine ⟨by decide, by decide, by decide, by decide, by decide, ?_⟩
  intro hall
  have h := hall 0 (bytes "10") (by decide)
  revert h
  decide

set_option maxRecDepth 100000 in
/-- C10: ethereumAnalyzer returns without a fault on a payload if and only if
every fragment of the payload between commas has at least 6 bytes, and every
fragment with `value` at bytes 1 to 5 has at least 10 bytes and its bytes from
index 9 up to the last one, exclusive, are an integer literal that base-0
parsing accepts; on every other payload it faults with a slice out of range
or a nil dereference, as on the empty payload, behind a trailing comma and on
a value fragment with unparsable text. -/
theorem C10_fault_free_iff :
    (∀ text : GoString,
      ((∃ r, ethereumAnalyzer text = .ok r) ↔
        ∀ w ∈ Split text 44, 6 ≤ w.length ∧
          (hasValueKey w = true → 10 ≤ w.length ∧ (SetString (valueText w)).isSome = true)) ∧
      ((¬ ∃ r, ethereumAnalyzer text = .ok r) →
        ethereumAnalyzer text = .error .sliceBounds ∨
        ethereumAnalyzer text = .error .nilDeref)) ∧
    ethereumAnalyzer (bytes "") = .error .sliceBounds ∧
    ethereumAnalyzer (bytes "\"blockHash\":\"0xab\",") = .error .sliceBounds ∧
    ethereumAnalyzer (bytes "\"value\":\"0xZZ\"") = .error .nilDeref := by
  refine ⟨fun text => ⟨?_, ?_⟩, by decide, by decide, by decide⟩
  · have hiff := sumWords_ok_iff (Split text 44) 0
    unfold GoodFragment at hiff
    rw [← hiff, ethereumAnalyzer_eq]
    unfold totalWei
    cases sumWords 0 (Split text 44) with
    | error e => simp
    | ok t => simp
  · intro hno
    rw [ethereumAnalyzer_eq] at hno ⊢
    cases ht : totalWei text with
    | ok t => rw [ht] at hno; exact absurd ⟨_, rfl⟩ hno
    | error e =>
      rcases sumWords_fault (Split text 44) 0 e ht with rfl | rfl
      · exact Or.inl rfl
      · exact Or.inr rfl

end EthereumBlockAnalyzer
